import Mathlib

/-!
Verification of the `av_srt_generation` subtitle pipeline.

This file shallowly embeds the Python sources under
`src/av_srt_generation/pipeline/` (`gate.py`, `subtitles.py`,
`translate.py`) into Lean and proves the specification claims about them.

Modelling conventions:
* Python `str` is modelled as Lean `String` (a list of unicode scalar
  `Char`s); `len` is `String.length`.
* Python `int` is `Int`; millisecond fields are `Int`.
* Python `float` arithmetic is idealised as exact rational arithmetic
  (`ℚ`); the float literals `1.2` and `1e-6` are the rationals `6/5` and
  `1/1000000`.  All comparisons proved concretely below are far from the
  rounding error of IEEE doubles.
* Python `char.isspace()` / regex `\s` is modelled by `pyIsSpace`, an
  explicit enumeration of the unicode whitespace code points Python
  treats as space.
* The unicode word/alphanumeric classes used by `gate.py` (`\w`,
  `str.isalnum`) are modelled by explicit ASCII + Japanese-range
  predicates, which cover every character class the gate distinguishes.
-/

namespace AvSrt

/-- Python whitespace: the code points for which `str.isspace()` is true
(equivalently which regex `\s` matches in unicode mode). -/
def pyIsSpace (c : Char) : Bool :=
  c = ' ' || c = '\t' || c = '\n' || c.val = 11 || c.val = 12 || c.val = 13 ||
  (28 ≤ c.val && c.val ≤ 31) || c.val = 0x85 || c.val = 0xa0 ||
  c.val = 0x1680 || (0x2000 ≤ c.val && c.val ≤ 0x200a) ||
  c.val = 0x2028 || c.val = 0x2029 || c.val = 0x202f || c.val = 0x205f ||
  c.val = 0x3000

/-- Python `str.strip()` on a character list: drop whitespace at both ends. -/
def pyStripL (l : List Char) : List Char :=
  ((l.dropWhile pyIsSpace).reverse.dropWhile pyIsSpace).reverse

/-- Python `str.strip()`. -/
def pyStrip (s : String) : String := ⟨pyStripL s.data⟩

/-- `count_jp_chars` from `subtitles.py`: number of non-whitespace chars. -/
def count_jp_chars (s : String) : Nat :=
  (s.data.filter (fun c => !pyIsSpace c)).length

/-- The `_SPLIT_PUNCT` constant of `subtitles.py`. -/
def splitPunct : List Char := ['。', '！', '？', '、', ',', '.', '!', '?']

/-- Membership in `_SPLIT_PUNCT`. -/
def isSplitPunct (c : Char) : Bool := splitPunct.contains c

/-! ## Segment gate (`gate.py`) -/

/-- `GateConfig` from `gate.py` (floats modelled as exact rationals). -/
structure GateConfig where
  min_text_chars : Int := 2
  max_chars_per_sec : ℚ := 20
  min_japanese_char_ratio : ℚ := 3/10
  max_repeated_char_ratio : ℚ := 6/10
  drop_if_contains_only_punct : Bool := true
deriving DecidableEq, Repr

/-- `_JAPANESE_CHAR_RE` from `gate.py`: one char in the Japanese unicode
ranges `3040-30FF, 3400-4DBF, 4E00-9FFF, F900-FAFF, FF66-FF9F`. -/
def isJapaneseChar (c : Char) : Bool :=
  (0x3040 ≤ c.val && c.val ≤ 0x30FF) || (0x3400 ≤ c.val && c.val ≤ 0x4DBF) ||
  (0x4E00 ≤ c.val && c.val ≤ 0x9FFF) || (0xF900 ≤ c.val && c.val ≤ 0xFAFF) ||
  (0xFF66 ≤ c.val && c.val ≤ 0xFF9F)

/-- Model of Python's unicode word class `\w` restricted to the character
sets this program distinguishes: ASCII alphanumerics, underscore and the
Japanese ranges. -/
def pyIsWordChar (c : Char) : Bool :=
  c.isAlpha || c.isDigit || c = '_' || isJapaneseChar c

/-- Model of Python's `str.isalnum` on the character sets this program
distinguishes: ASCII alphanumerics and the Japanese ranges. -/
def pyIsAlnum (c : Char) : Bool := c.isAlpha || c.isDigit || isJapaneseChar c

/-- `_strip_punct_and_space` from `gate.py`: `re.sub(r"[\W_]+", "", text)`
removes every character that is not a word character, and underscores. -/
def strip_punct_and_space (s : String) : String :=
  ⟨s.data.filter (fun c => pyIsWordChar c && !(c = '_'))⟩

/-- `_japanese_char_ratio` from `gate.py`: Japanese chars over all
alphanumeric-or-Japanese chars; `0` when the denominator is zero. -/
def japanese_char_ratio (s : String) : ℚ :=
  let jp := (s.data.filter isJapaneseChar).length
  let denom := (s.data.filter (fun c => isJapaneseChar c || pyIsAlnum c)).length
  if denom = 0 then 0 else (jp : ℚ) / (denom : ℚ)

/-- `_repeated_char_ratio` from `gate.py`: after deleting whitespace, the
multiplicity of the most frequent character divided by the total count
(`0` for the empty compact string). -/
def repeated_char_ratio (s : String) : ℚ :=
  let compact := s.data.filter (fun c => !pyIsSpace c)
  if compact.isEmpty then 0
  else ((compact.map (fun c => compact.count c)).foldl max 0 : ℚ) /
    (compact.length : ℚ)

/-- `_should_drop` from `gate.py`: the sequential early-return rule chain
deciding whether a segment is dropped, and with which reason. -/
def should_drop (text : String) (duration_sec : ℚ) (language : String)
    (config : GateConfig) : Bool × String :=
  let stripped := pyStrip text
  if stripped.data.isEmpty then (true, "empty")
  else if config.drop_if_contains_only_punct &&
      (strip_punct_and_space text).data.isEmpty then (true, "punct-only")
  else if decide ((stripped.length : Int) < config.min_text_chars) &&
      decide ((1 : ℚ) ≤ duration_sec) then (true, "too-short")
  else if decide (config.max_chars_per_sec <
      (stripped.length : ℚ) / duration_sec) then (true, "too-fast")
  else if (language == "ja") &&
      decide (japanese_char_ratio text < config.min_japanese_char_ratio) then
    (true, "low-ja-ratio")
  else if decide (config.max_repeated_char_ratio <
      repeated_char_ratio text) then (true, "repeated-char")
  else (false, "")

/-- The clamped duration used by `gate_segments` (`gate.py` line 200):
`max((end_ms - start_ms) / 1000.0, 1e-6)`. -/
def gateDurationSec (start_ms end_ms : Int) : ℚ :=
  max (((end_ms : ℚ) - (start_ms : ℚ)) / 1000) (1/1000000)

/-- The spec's ordered gate rule list (§4.3): reason names paired with
their predicates, in the order the spec prescribes. -/
def gateRules (config : GateConfig) (duration_sec : ℚ) (language : String) :
    List (String × (String → Bool)) :=
  [("empty", fun t => (pyStrip t).data.isEmpty),
   ("punct-only", fun t => config.drop_if_contains_only_punct &&
      (strip_punct_and_space t).data.isEmpty),
   ("too-short", fun t => decide (((pyStrip t).length : Int) < config.min_text_chars) &&
      decide ((1 : ℚ) ≤ duration_sec)),
   ("too-fast", fun t => decide (config.max_chars_per_sec <
      ((pyStrip t).length : ℚ) / duration_sec)),
   ("low-ja-ratio", fun t => (language == "ja") &&
      decide (japanese_char_ratio t < config.min_japanese_char_ratio)),
   ("repeated-char", fun t => decide (config.max_repeated_char_ratio <
      repeated_char_ratio t))]

/-! ## Block builder (`subtitles.py`) -/

/-- `Stage6Config` from `subtitles.py` (floats as exact rationals; the
two line-geometry fields are the non-negative counts they are in every
use). -/
structure Stage6Config where
  merge_gap_ms : Int := 250
  max_block_ms : Int := 6000
  min_block_ms : Int := 800
  max_lines : Nat := 2
  chars_per_line : Nat := 22
  target_chars_per_sec : ℚ := 12
deriving DecidableEq, Repr

/-- The derived `max_chars_per_block` property. -/
def Stage6Config.max_chars_per_block (c : Stage6Config) : Nat :=
  c.max_lines * c.chars_per_line

/-- `Segment` from `subtitles.py`. -/
structure Segment where
  start_ms : Int
  end_ms : Int
  text : String
deriving DecidableEq, Repr

instance : Inhabited Segment := ⟨⟨0, 0, ""⟩⟩

/-- `Block` from `subtitles.py`. -/
structure Block where
  start_ms : Int
  end_ms : Int
  text : String
  segments : List Segment
deriving DecidableEq, Repr

/-- `_block_duration`: `max(end_ms - start_ms, 0)`. -/
def block_duration (b : Block) : Int := max (b.end_ms - b.start_ms) 0

/-- `_block_chars_per_sec`: visible chars over the clamped duration. -/
def block_chars_per_sec (b : Block) : ℚ :=
  (count_jp_chars b.text : ℚ) / max ((block_duration b : ℚ) / 1000) (1/1000000)

/-- Python `int(q)` for a float value: truncation toward zero. -/
def pyTrunc (q : ℚ) : Int := if 0 ≤ q then ⌊q⌋ else -⌊-q⌋

/-- The loop body of `_merge_segments`: `current` is the open block, the
remaining segments are consumed left to right. -/
def mergeLoop (config : Stage6Config) (current : Block) :
    List Segment → List Block
  | [] => [current]
  | seg :: rest =>
    let gap := max (seg.start_ms - current.end_ms) 0
    let merged_end := max current.end_ms seg.end_ms
    let merged_text := current.text ++ seg.text
    let merged_chars := count_jp_chars merged_text
    let merged_duration := merged_end - current.start_ms
    let merged_cps := (merged_chars : ℚ) /
      max ((merged_duration : ℚ) / 1000) (1/1000000)
    if gap ≤ config.merge_gap_ms ∧ merged_duration ≤ config.max_block_ms ∧
        merged_chars ≤ config.max_chars_per_block ∧
        merged_cps ≤ config.target_chars_per_sec * (6/5) then
      mergeLoop config
        ⟨current.start_ms, merged_end, merged_text, current.segments ++ [seg]⟩ rest
    else
      current :: mergeLoop config ⟨seg.start_ms, seg.end_ms, seg.text, [seg]⟩ rest

/-- `_merge_segments` from `subtitles.py` (Phase A). -/
def merge_segments (segments : List Segment) (config : Stage6Config) :
    List Block :=
  match segments with
  | [] => []
  | seg :: rest => mergeLoop config ⟨seg.start_ms, seg.end_ms, seg.text, [seg]⟩ rest

/-- The block obtained by extending the current open block with the next
segment (the `if` branch of `_merge_segments`). -/
def extendedBlock (current : Block) (seg : Segment) : Block :=
  ⟨current.start_ms, max current.end_ms seg.end_ms,
   current.text ++ seg.text, current.segments ++ [seg]⟩

/-- The fresh single-segment block opened at a segment (the `else` branch
of `_merge_segments`). -/
def openedBlock (seg : Segment) : Block :=
  ⟨seg.start_ms, seg.end_ms, seg.text, [seg]⟩

/-- The spec's Phase A merge conditions (§4.4), stated as in the spec:
gap within `merge_gap_ms`, merged duration within `max_block_ms`, merged
visible chars within `max_chars_per_block`, merged chars-per-second within
`target_chars_per_sec * 1.2`. -/
def specExtendConditions (current : Block) (seg : Segment)
    (config : Stage6Config) : Prop :=
  max (seg.start_ms - current.end_ms) 0 ≤ config.merge_gap_ms ∧
  max current.end_ms seg.end_ms - current.start_ms ≤ config.max_block_ms ∧
  count_jp_chars (current.text ++ seg.text) ≤ config.max_chars_per_block ∧
  (count_jp_chars (current.text ++ seg.text) : ℚ) /
      max (((max current.end_ms seg.end_ms - current.start_ms : Int) : ℚ) / 1000)
        (1/1000000) ≤
    config.target_chars_per_sec * (6/5)

instance (current : Block) (seg : Segment) (config : Stage6Config) :
    Decidable (specExtendConditions current seg config) := by
  unfold specExtendConditions; infer_instance

/-- Lexicographic comparison of the key tuples Python's `min` uses in
`choose_split_point`. -/
def keyLt (a b : Nat × Nat) : Bool :=
  a.1 < b.1 || (a.1 = b.1 && a.2 < b.2)

/-- `choose_split_point` from `subtitles.py`: the punctuation-aware split
offset nearest the midpoint (ties broken toward offsets at or before the
midpoint, then toward the earliest candidate, as Python's `min` does). -/
def choose_split_point (s : String) : Nat :=
  if s.data.isEmpty then 0
  else
    let midpoint := s.length / 2
    let candidates := (List.range (s.length - 1)).filter
      (fun idx => isSplitPunct (s.data.getD idx ' '))
    match candidates with
    | [] => midpoint
    | c :: cs =>
      let key : Nat → Nat × Nat := fun idx =>
        (((idx : Int) - (midpoint : Int)).natAbs, if idx ≤ midpoint then 0 else 1)
      let best_idx := cs.foldl
        (fun best idx => if keyLt (key idx) (key best) then idx else best) c
      let split_at := best_idx + 1
      if split_at = 0 ∨ s.length ≤ split_at then midpoint else split_at

/-- `_ends_with_punct`: after right-stripping, the last char is in
`_SPLIT_PUNCT`. -/
def ends_with_punct (s : String) : Bool :=
  match s.data.reverse.dropWhile pyIsSpace with
  | [] => false
  | c :: _ => isSplitPunct c

/-- `_split_on_segment_boundary` from `subtitles.py`: split a multi-segment
block at the constituent boundary minimizing character imbalance, with a
`-0.5` score bonus when the left half ends in punctuation; ties keep the
earliest boundary (Python keeps the incumbent on non-strict improvement). -/
def split_on_segment_boundary (block : Block) : Option (Block × Block) :=
  if block.segments.length < 2 then none
  else
    let total_chars := (block.segments.map (fun s => count_jp_chars s.text)).sum
    let score : Nat → ℚ := fun idx =>
      let left_chars := ((block.segments.take idx).map
        (fun s => count_jp_chars s.text)).sum
      let right_chars := total_chars - left_chars
      let left_text := String.join ((block.segments.take idx).map (·.text))
      (((left_chars : Int) - (right_chars : Int)).natAbs : ℚ) -
        (if ends_with_punct left_text then 1/2 else 0)
    let best_idx := (List.range' 2 (block.segments.length - 2)).foldl
      (fun best idx => if score idx < score best then idx else best) 1
    let left_segments := block.segments.take best_idx
    let right_segments := block.segments.drop best_idx
    some
      (⟨(left_segments.headD default).start_ms,
        (left_segments.getLastD default).end_ms,
        String.join (left_segments.map (·.text)), left_segments⟩,
       ⟨(right_segments.headD default).start_ms,
        (right_segments.getLastD default).end_ms,
        String.join (right_segments.map (·.text)), right_segments⟩)

/-- `_split_inside_text` from `subtitles.py`: split a block's text at the
chosen offset and partition the time span proportionally to the visible
character ratio, clamping so both halves stay at least 1 ms long. -/
def split_inside_text (block : Block) : Option (Block × Block) :=
  if block.text.length ≤ 1 then none
  else
    let split_idx0 := choose_split_point block.text
    let split_idx := if split_idx0 = 0 ∨ block.text.length ≤ split_idx0 then
      block.text.length / 2 else split_idx0
    let left_text : String := ⟨block.text.data.take split_idx⟩
    let right_text : String := ⟨block.text.data.drop split_idx⟩
    let total_chars := count_jp_chars block.text
    let left_chars := count_jp_chars left_text
    let ratio : ℚ := if total_chars = 0 then 1/2 else
      (left_chars : ℚ) / (total_chars : ℚ)
    let duration := block_duration block
    let split_ms0 := pyTrunc ((block.start_ms : ℚ) + (duration : ℚ) * ratio)
    let split_ms := max (block.start_ms + 1) (min (block.end_ms - 1) split_ms0)
    if split_ms ≤ block.start_ms ∨ block.end_ms ≤ split_ms then none
    else
      some
        (⟨block.start_ms, split_ms, left_text,
          [⟨block.start_ms, split_ms, left_text⟩]⟩,
         ⟨split_ms, block.end_ms, right_text,
          [⟨split_ms, block.end_ms, right_text⟩]⟩)

/-- `_split_block`: prefer a segment-boundary split, else an in-text split. -/
def split_block (block : Block) : Option (Block × Block) :=
  match split_on_segment_boundary block with
  | some pair => some pair
  | none => split_inside_text block

/-- `_block_needs_split`: duration, char-count or chars-per-second above
the strict ceilings. -/
def block_needs_split (block : Block) (config : Stage6Config) : Bool :=
  decide (config.max_block_ms < block_duration block) ||
  decide (config.max_chars_per_block < count_jp_chars block.text) ||
  decide (config.target_chars_per_sec < block_chars_per_sec block)

/-- The recursion of `_enforce_block_constraints`, with explicit fuel.
The fuel only bounds the recursion depth; `enforceBound` below always
suffices, because a boundary split strictly decreases the constituent
count of both halves, an in-text split happens only on blocks with fewer
than two constituents and strictly decreases the text length, and an
in-text split's halves carry their half text as their single constituent. -/
def enforceFuel : Nat → Block → Stage6Config → List Block
  | 0, block, _ => [block]
  | fuel + 1, block, config =>
    if block_needs_split block config then
      match split_block block with
      | none => [block]
      | some (l, r) => enforceFuel fuel l config ++ enforceFuel fuel r config
    else [block]

/-- A depth bound for `_enforce_block_constraints`' recursion (see
`enforceFuel`): segment count + total constituent text length + own text
length + 2 strictly exceeds the depth of any split chain. -/
def enforceBound (block : Block) : Nat :=
  block.segments.length + (block.segments.map (fun s => s.text.length)).sum +
    block.text.length + 2

/-- `_enforce_block_constraints` from `subtitles.py` (Phase B). -/
def enforce_block_constraints (block : Block) (config : Stage6Config) :
    List Block :=
  enforceFuel (enforceBound block) block config

/-- Stable insertion of a block into a sorted list: a later element goes
after every earlier element whose `(start_ms, end_ms)` key is `≤` its own,
exactly as Python's stable `list.sort(key=...)` orders equal keys. -/
def insertBlockSorted (b : Block) : List Block → List Block
  | [] => [b]
  | c :: l =>
    if c.start_ms < b.start_ms ∨ (c.start_ms = b.start_ms ∧ c.end_ms ≤ b.end_ms)
    then c :: insertBlockSorted b l
    else b :: c :: l

/-- Stable sort by `(start_ms, end_ms)` (the `final_blocks.sort` call of
`build_subtitle_blocks_ja`), as a stable insertion sort. -/
def sortBlocks (blocks : List Block) : List Block :=
  blocks.foldl (fun acc b => insertBlockSorted b acc) []

/-- One entry of the emitted `subtitle_blocks_ja.json` payload. -/
structure BlockOut where
  block_id : Nat
  start_ms : Int
  end_ms : Int
  text : String
deriving DecidableEq, Repr

/-- The `payload` comprehension of `build_subtitle_blocks_ja`: 1-based ids
over the sorted final blocks. -/
def blocksPayload (blocks : List Block) : List BlockOut :=
  (blocks.enum).map (fun p => ⟨p.1 + 1, p.2.start_ms, p.2.end_ms, p.2.text⟩)

/-- The pure artifact computation of `build_subtitle_blocks_ja` as found in
`subtitles.py`: Phase A merge, Phase B enforcement, stable sort, renumber. -/
def buildSubtitleBlocks (segments : List Segment) (config : Stage6Config) :
    List BlockOut :=
  let merged := merge_segments segments config
  let final := merged.flatMap (fun b => enforce_block_constraints b config)
  blocksPayload (sortBlocks final)

/-! ## Text wrapper and SRT preparation (`subtitles.py`) -/

/-- The inner-window scan of `wrap_japanese`: on a remainder longer than
`chars_per_line`, look for punctuation from index `chars_per_line - 1`
down to `max(chars_per_line - 4, 1)` in the window and break after it,
else break exactly at the width boundary. -/
def wrapSplitIdx (chars_per_line : Nat) (rem : List Char) : Nat :=
  let window := rem.take chars_per_line
  let window_start := max (chars_per_line - 4) 1
  match ((List.range' window_start (chars_per_line - window_start)).reverse).find?
      (fun idx => isSplitPunct (window.getD idx ' ')) with
  | some idx => idx + 1
  | none => chars_per_line

/-- The main loop of `wrap_japanese`: the budget is the number of lines
still allowed (`max_lines - len(lines)`); it returns the produced lines
and the unconsumed remainder (nonempty exactly when the loop stopped on
the line budget). -/
def wrapChunks (chars_per_line : Nat) : Nat → List Char →
    (List (List Char) × List Char)
  | 0, rem => ([], rem)
  | _ + 1, [] => ([], [])
  | budget + 1, c :: cs =>
    if (c :: cs).length ≤ chars_per_line then ([c :: cs], [])
    else
      let si := wrapSplitIdx chars_per_line (c :: cs)
      let r := wrapChunks chars_per_line budget ((c :: cs).drop si)
      ((c :: cs).take si :: r.1, r.2)

/-- The loop of `_wrap_remaining`, with explicit fuel.  Each iteration
consumes `chars_per_line ≥ 1` characters, so fuel equal to the text length
suffices; the fuel-exhausted arm (reachable only for `chars_per_line = 0`,
where the Python loop does not terminate at all) dumps the remainder. -/
def wrapRemAux (chars_per_line : Nat) : Nat → List Char → List (List Char)
  | _, [] => []
  | 0, rem => [rem]
  | fuel + 1, c :: cs =>
    if (c :: cs).length ≤ chars_per_line then [c :: cs]
    else (c :: cs).take chars_per_line ::
      wrapRemAux chars_per_line fuel ((c :: cs).drop chars_per_line)

/-- `_wrap_remaining` from `subtitles.py`. -/
def wrap_remaining (text : List Char) (chars_per_line : Nat) :
    List (List Char) :=
  wrapRemAux chars_per_line text.length text

/-- `wrap_japanese` from `subtitles.py`.  (For `chars_per_line = 0` the
Python loop does not terminate; the embedding is total and is only
consulted at `chars_per_line ≥ 1`.) -/
def wrap_japanese (s : String) (chars_per_line max_lines : Nat) :
    List String :=
  let r := wrapChunks chars_per_line max_lines s.data
  let lines := if r.2.isEmpty then r.1
    else if r.1.length < max_lines then r.1 ++ [r.2]
    else r.1 ++ wrap_remaining r.2 chars_per_line
  lines.map (fun l => (⟨l⟩ : String))

/-- `_force_wrapped_lines` from `subtitles.py` (modelled for
`max_lines ≥ 1`; Python's negative slice at `max_lines = 0` is outside
every use). -/
def force_wrapped_lines (text : String) (chars_per_line max_lines : Nat) :
    List String :=
  let lines := wrap_japanese text chars_per_line max_lines
  if lines.length ≤ max_lines then lines
  else lines.take (max_lines - 1) ++
    [String.join (lines.drop (max_lines - 1))]

/-- A block dict as stage 8 reads it from `subtitle_blocks_ja.json`
(`block_id` is used only in log strings and is not modelled). -/
structure RawBlock where
  start_ms : Int
  end_ms : Int
  text : String
deriving DecidableEq, Repr

/-- `_split_block_for_srt` from `subtitles.py`. -/
def split_block_for_srt (block : RawBlock) : List RawBlock :=
  if block.text.length ≤ 1 then [block]
  else
    let split_idx0 := choose_split_point block.text
    let split_idx := if split_idx0 = 0 ∨ block.text.length ≤ split_idx0 then
      block.text.length / 2 else split_idx0
    let left_text : String := ⟨block.text.data.take split_idx⟩
    let right_text : String := ⟨block.text.data.drop split_idx⟩
    if block.end_ms - block.start_ms ≤ 1 then [block]
    else
      let total_chars := count_jp_chars block.text
      let left_chars := count_jp_chars left_text
      let ratio : ℚ := if total_chars = 0 then 1/2 else
        (left_chars : ℚ) / (total_chars : ℚ)
      let duration := max (block.end_ms - block.start_ms) 0
      let split_ms0 := pyTrunc ((block.start_ms : ℚ) + (duration : ℚ) * ratio)
      let split_ms := max (block.start_ms + 1) (min (block.end_ms - 1) split_ms0)
      if split_ms ≤ block.start_ms ∨ block.end_ms ≤ split_ms then [block]
      else [⟨block.start_ms, split_ms, left_text⟩,
            ⟨split_ms, block.end_ms, right_text⟩]

/-- One prepared entry of `_prepare_srt_blocks`' output: `lines` is `some`
exactly when the dict carries the forced-wrap `"lines"` key. -/
structure PreparedBlock where
  start_ms : Int
  end_ms : Int
  text : String
  lines : Option (List String)
deriving DecidableEq, Repr

/-- A fuel bound for the `_prepare_srt_blocks` work queue: each iteration
either removes a block or replaces one by two blocks whose squared text
lengths sum to strictly less, so this measure plus one bounds the number
of iterations. -/
def prepQueueMeasure (queue : List RawBlock) : Nat :=
  (queue.map (fun b => b.text.length * b.text.length + 1)).sum

/-- The work-queue loop of `_prepare_srt_blocks`, with explicit fuel (the
fuel-exhausted arm is unreachable from `prepare_srt_blocks`, see
`prepQueueMeasure`). -/
def prepAux (chars_per_line max_lines : Nat) :
    Nat → List RawBlock → List PreparedBlock
  | _, [] => []
  | 0, _ => []
  | fuel + 1, block :: queue =>
    let lines := wrap_japanese block.text chars_per_line max_lines
    if lines.length ≤ max_lines then
      ⟨block.start_ms, block.end_ms, block.text, none⟩ ::
        prepAux chars_per_line max_lines fuel queue
    else if split_block_for_srt block = [block] then
      ⟨block.start_ms, block.end_ms, block.text,
        some (force_wrapped_lines block.text chars_per_line max_lines)⟩ ::
        prepAux chars_per_line max_lines fuel queue
    else prepAux chars_per_line max_lines fuel
      (split_block_for_srt block ++ queue)

/-- `_prepare_srt_blocks` from `subtitles.py`. -/
def prepare_srt_blocks (blocks : List RawBlock)
    (chars_per_line max_lines : Nat) : List PreparedBlock :=
  prepAux chars_per_line max_lines (prepQueueMeasure blocks + 1) blocks

/-- The line selection of `_render_srt`: the stored forced-wrap lines if
present, else a fresh wrap of the block text. -/
def renderLines (p : PreparedBlock) (chars_per_line max_lines : Nat) :
    List String :=
  match p.lines with
  | some ls => ls
  | none => wrap_japanese p.text chars_per_line max_lines

/-! ## Text normalization (`normalize_japanese_text`) -/

/-- The `str.maketrans` table of `normalize_japanese_text`: ASCII comma,
period, question and exclamation marks become their Japanese forms. -/
def translateJa (c : Char) : Char :=
  if c = ',' then '、' else if c = '.' then '。'
  else if c = '?' then '？' else if c = '!' then '！' else c

/-- The four Japanese punctuation marks of the second regex,
`[、。！？]`. -/
def isJaPunct (c : Char) : Bool :=
  c = '、' || c = '。' || c = '！' || c = '？'

/-- The loop of `re.sub(r"\s+", " ", ·)`, with explicit fuel: replace
every maximal whitespace run by one space (Python's leftmost-longest match
on the greedy `\s+`).  Each step consumes at least the head character, so
fuel equal to the length suffices and the fuel-exhausted arm is
unreachable from `collapseWs`. -/
def collapseWsAux : Nat → List Char → List Char
  | _, [] => []
  | 0, l => l
  | fuel + 1, c :: cs =>
    if pyIsSpace c then ' ' :: collapseWsAux fuel (cs.dropWhile pyIsSpace)
    else c :: collapseWsAux fuel cs

/-- `re.sub(r"\s+", " ", ·)`. -/
def collapseWs (l : List Char) : List Char := collapseWsAux l.length l

/-- `re.sub(r"\s*([、。！？])\s*", r"\1", ·)`: Python's leftmost scan with
greedy `\s*` deletes every maximal whitespace run adjacent to one of the
four punctuation marks (a run between two marks is absorbed by the first),
and keeps everything else.  Each arm mirrors one scanning situation: a
mark absorbs its trailing run; a run followed by a mark is absorbed with
that mark's trailing run; a run not followed by a mark is kept and the
scan resumes after the following character. -/
def stripAroundPunctAux : Nat → List Char → List Char
  | _, [] => []
  | 0, l => l
  | fuel + 1, c :: cs =>
    if isJaPunct c then c :: stripAroundPunctAux fuel (cs.dropWhile pyIsSpace)
    else if pyIsSpace c then
      match cs.dropWhile pyIsSpace with
      | [] => c :: cs
      | d :: rs =>
        if isJaPunct d then
          d :: stripAroundPunctAux fuel (rs.dropWhile pyIsSpace)
        else c :: (cs.takeWhile pyIsSpace ++ d :: stripAroundPunctAux fuel rs)
    else c :: stripAroundPunctAux fuel cs

/-- `re.sub(r"\s*([、。！？])\s*", r"\1", ·)` (each recursion shortens the
list, so fuel equal to the length suffices and the fuel-exhausted arm is
unreachable from `stripAroundPunct`). -/
def stripAroundPunct (l : List Char) : List Char :=
  stripAroundPunctAux l.length l

/-- `normalize_japanese_text` from `subtitles.py`: translate ASCII
punctuation, collapse whitespace runs, delete whitespace around Japanese
punctuation, strip. -/
def normalize_japanese_text (s : String) : String :=
  ⟨pyStripL (stripAroundPunct (collapseWs (s.data.map translateJa)))⟩

/-- Normal form predicate: no character that the translation table still
maps (i.e. no ASCII `,.?!`). -/
def NoAsciiPunct (l : List Char) : Prop := ∀ c ∈ l, translateJa c = c

/-- Normal form predicate: every whitespace character is a plain space
and no two whitespace characters are adjacent. -/
def WsSingle (l : List Char) : Prop :=
  (∀ c ∈ l, pyIsSpace c → c = ' ') ∧
  List.Chain' (fun a b => ¬(pyIsSpace a ∧ pyIsSpace b)) l

/-- Normal form predicate: no whitespace adjacent to Japanese
punctuation, on either side. -/
def NoWsAroundPunct (l : List Char) : Prop :=
  List.Chain' (fun a b =>
    ¬(isJaPunct a ∧ pyIsSpace b) ∧ ¬(pyIsSpace a ∧ isJaPunct b)) l

/-! ## Phase C — short-block consolidation (modelled from the spec)

`_merge_short_blocks` is imported and exercised by
`tests/test_subtitles.py`, but its definition is not among the available
sources; the definitions in this section are modelled from the spec
(§4.4 Phase C). -/

/-- A block shorter than `min_block_ms` (Phase C's "short block"). -/
def shortBlock (config : Stage6Config) (b : Block) : Bool :=
  decide (block_duration b < config.min_block_ms)

/-- The gap between a block and the next one (clamped at zero, as every
gap in this module is). -/
def blockGap (b n : Block) : Int := max (n.start_ms - b.end_ms) 0

/-- The consolidation of two adjacent blocks into one. -/
def consolidate (b n : Block) : Block :=
  ⟨b.start_ms, max b.end_ms n.end_ms, b.text ++ n.text, b.segments ++ n.segments⟩

/-- Phase C's merge legality for two adjacent blocks: gap within
`merge_gap_ms` and merged duration within `max_block_ms`. -/
def canConsolidate (config : Stage6Config) (b n : Block) : Bool :=
  decide (blockGap b n ≤ config.merge_gap_ms) &&
  decide (block_duration (consolidate b n) ≤ config.max_block_ms)

/-- Modelled from the spec: the recursion of `_merge_short_blocks`
(§4.4 Phase C).  A single left-to-right pass over adjacent pairs: when
either neighbor of an adjacent pair is short and the pair may legally be
consolidated, the pair is replaced by its consolidation (and the result is
reconsidered in place); otherwise the left block is emitted.  The fuel
argument only bounds the recursion; each step shortens the list by exactly
one element, so the `(0, l)` arm is unreachable from
`merge_short_blocks`, which supplies the list length as fuel. -/
def msbAux (config : Stage6Config) : Nat → List Block → List Block
  | _, [] => []
  | _, [b] => [b]
  | 0, l => l
  | fuel + 1, b :: n :: rest =>
    if (shortBlock config b || shortBlock config n) && canConsolidate config b n
    then msbAux config fuel (consolidate b n :: rest)
    else b :: msbAux config fuel (n :: rest)

/-- Modelled from the spec: `_merge_short_blocks` (§4.4 Phase C). -/
def merge_short_blocks (config : Stage6Config) (blocks : List Block) :
    List Block :=
  msbAux config blocks.length blocks

/-- The Phase C postcondition on an adjacent output pair: a short member
of the pair has no legal consolidation with the other. -/
def noMissedConsolidation (config : Stage6Config) (u v : Block) : Prop :=
  (shortBlock config u = true → canConsolidate config u v = false) ∧
  (shortBlock config v = true → canConsolidate config u v = false)

/-! ## SRT parse / render (`translate.py`) -/

/-- The line boundaries of Python `str.splitlines`: LF, VT, FF, CR,
FS, GS, RS, NEL, LINE SEPARATOR, PARAGRAPH SEPARATOR (CR LF counts as a
single boundary). -/
def isLineBreak (c : Char) : Bool :=
  c.val = 10 || c.val = 11 || c.val = 12 || c.val = 13 ||
  c.val = 28 || c.val = 29 || c.val = 30 || c.val = 0x85 ||
  c.val = 0x2028 || c.val = 0x2029

/-- The scanner of `str.splitlines`: `acc` holds the current line
reversed; a CR immediately followed by LF is one boundary; a trailing
boundary produces no extra empty line.  Each step consumes at least one
character, so fuel equal to the length suffices and the fuel-exhausted
arm is unreachable from `pySplitLines`. -/
def slAux : Nat → List Char → List Char → List (List Char)
  | _, acc, [] => [acc.reverse]
  | 0, acc, l => [acc.reverse ++ l]
  | fuel + 1, acc, c :: rest =>
    if isLineBreak c then
      let rest' := if c = '\r' && rest.head? == some '\n' then rest.tail
        else rest
      acc.reverse :: (if rest'.isEmpty then [] else slAux fuel [] rest')
    else slAux fuel (c :: acc) rest

/-- Python `str.splitlines` (the empty string yields no lines). -/
def pySplitLines (s : String) : List String :=
  match s.data with
  | [] => []
  | l => (slAux l.length [] l).map (fun cs => (⟨cs⟩ : String))

/-- Python line truthiness after `strip`: a line is blank when it strips
to the empty string. -/
def isBlank (s : String) : Bool := (pyStripL s.data).isEmpty

/-- Python `str.rstrip()` on a character list. -/
def pyRstripL (l : List Char) : List Char :=
  (l.reverse.dropWhile pyIsSpace).reverse

/-- The numeric value of an ASCII digit. -/
def digitVal (c : Char) : Nat := c.toNat - 48

/-- The digits of a decimal literal, with parsed value (`none` when the
list is empty or contains a non-digit). -/
def parseNatDigits (l : List Char) : Option Nat :=
  if l.isEmpty then none
  else if l.all Char.isDigit then
    some (l.foldl (fun acc c => acc * 10 + digitVal c) 0)
  else none

/-- Python `int(str)` on the canonical integer literals this program
produces: optional surrounding whitespace, optional sign, decimal ASCII
digits (underscore grouping and non-ASCII digits are outside every use
here and not modelled). -/
def pyParseInt (s : String) : Option Int :=
  match pyStripL s.data with
  | '-' :: rest => (parseNatDigits rest).map (fun n => -(n : Int))
  | '+' :: rest => (parseNatDigits rest).map (fun n => (n : Int))
  | t => (parseNatDigits t).map (fun n => (n : Int))

/-- The decimal digits of a natural number, most significant first (the
fuel bounds the recursion depth; `n` itself always suffices). -/
def natToDigits : Nat → Nat → List Char
  | 0, n => [Char.ofNat (48 + n % 10)]
  | fuel + 1, n =>
    if n < 10 then [Char.ofNat (48 + n)]
    else natToDigits fuel (n / 10) ++ [Char.ofNat (48 + n % 10)]

/-- Python `str(int)`: canonical decimal rendering with a leading minus
for negatives. -/
def pyIntRepr (i : Int) : String :=
  match i with
  | .ofNat n => ⟨natToDigits n n⟩
  | .negSucc m => ⟨'-' :: natToDigits (m + 1) (m + 1)⟩

/-- Python `sub in s` and `s.split(sub, 1)` combined: the text before and
after the first occurrence of `sep`, or `none` when `sep` does not
occur. -/
def findSplitOnce (sep : List Char) : List Char → Option (List Char × List Char)
  | [] => none
  | c :: cs =>
    if sep.isPrefixOf (c :: cs) then some ([], (c :: cs).drop sep.length)
    else match findSplitOnce sep cs with
      | some (x, y) => some (c :: x, y)
      | none => none

/-- The `-->` separator of SRT timing lines. -/
def sepArrow : List Char := ['-', '-', '>']

/-- `SrtEntry` from `translate.py`. -/
structure SrtEntry where
  index : Int
  start_ts : String
  end_ts : String
  lines : List String
deriving DecidableEq, Repr

/-- The entry loop of `parse_srt`, with explicit fuel (each iteration
consumes at least two lines, so fuel equal to the number of lines
suffices and the fuel-exhausted arm is unreachable from `parse_srt`). -/
def parseEntriesAux : Nat → List String → Except String (List SrtEntry)
  | _, [] => .ok []
  | 0, _ :: _ => .error "internal: fuel exhausted"
  | fuel + 1, l =>
    match l.dropWhile isBlank with
    | [] => .ok []
    | idxLine :: rest =>
      let index_line := pyStrip idxLine
      match pyParseInt index_line with
      | none => .error ("Invalid SRT index line: " ++ index_line)
      | some index =>
        match rest with
        | [] => .error "Unexpected end of SRT after index line"
        | timingLine :: rest2 =>
          let timing := pyStrip timingLine
          match findSplitOnce sepArrow timing.data with
          | none => .error ("Invalid SRT timing line: " ++ timing)
          | some (a, b) =>
            let start_ts := pyStrip ⟨a⟩
            let end_ts := pyStrip ⟨b⟩
            let text_lines := rest2.takeWhile (fun x => !isBlank x)
            let remaining := rest2.dropWhile (fun x => !isBlank x)
            (parseEntriesAux fuel remaining).map
              (fun es => ⟨index, start_ts, end_ts, text_lines⟩ :: es)

/-- `parse_srt` from `translate.py`. -/
def parse_srt (text : String) : Except String (List SrtEntry) :=
  let lines := pySplitLines text
  parseEntriesAux lines.length lines

/-- The rendered block of one entry inside `render_srt`'s `output_lines`:
index line, timing line, text lines, and the separating empty line. -/
def entryBlock (e : SrtEntry) : List String :=
  pyIntRepr e.index :: (e.start_ts ++ " --> " ++ e.end_ts) :: (e.lines ++ [""])

/-- `"\n".join` on the character level. -/
def joinNL : List String → List Char
  | [] => []
  | [x] => x.data
  | x :: y :: t => x.data ++ '\n' :: joinNL (y :: t)

/-- `render_srt` from `translate.py`:
`"\n".join(output_lines).rstrip() + "\n"`. -/
def render_srt (entries : List SrtEntry) : String :=
  ⟨pyRstripL (joinNL (entries.flatMap entryBlock)) ++ ['\n']⟩

/-- The body of one entry's rendered block without the trailing separator
line: index line, timing line, text lines. -/
def entryLines (e : SrtEntry) : List String :=
  pyIntRepr e.index :: (e.start_ts ++ " --> " ++ e.end_ts) :: e.lines

/-- The rendered line list after the final `rstrip`: entry bodies joined
by single empty separator lines, with no trailing separator. -/
def sepLines : List SrtEntry → List String
  | [] => []
  | [e] => entryLines e
  | e :: f :: t => entryLines e ++ "" :: sepLines (f :: t)

/-- Well-formedness of one entry for the amended round-trip: at least one
text line, all text lines non-blank and free of line-break characters,
timing strings (empty ones included) free of line-break characters and
without leading or trailing whitespace, and `start_ts` without an
embedded `-->`. -/
abbrev entryRoundTripWF (e : SrtEntry) : Prop :=
  e.lines ≠ [] ∧
  (∀ l ∈ e.lines, isBlank l = false) ∧
  (∀ l ∈ e.lines, ∀ c ∈ l.data, isLineBreak c = false) ∧
  e.start_ts.data.head?.all (fun c => !pyIsSpace c) = true ∧
  e.start_ts.data.getLast?.all (fun c => !pyIsSpace c) = true ∧
  e.end_ts.data.head?.all (fun c => !pyIsSpace c) = true ∧
  e.end_ts.data.getLast?.all (fun c => !pyIsSpace c) = true ∧
  (∀ c ∈ e.start_ts.data, isLineBreak c = false) ∧
  (∀ c ∈ e.end_ts.data, isLineBreak c = false) ∧
  findSplitOnce sepArrow e.start_ts.data = none

/-! ## Stage 6 cache protocol (`build_subtitle_blocks_ja`)

File contents are modelled as their decoded JSON values and `sha256` as
the identity fingerprint on those values (hashes of distinct bytes are
assumed distinct, the idealization the cache protocol itself relies on). -/

/-- A content fingerprint: `_input_fingerprint` hashes the gate's
metadata sidecar when it exists, else the gated segments artifact.  The
sidecar's bytes are opaque to stage 6 and modelled as a `String`. -/
inductive Fingerprint where
  | ofMeta (content : String)
  | ofSegments (content : List Segment)
deriving DecidableEq, Repr

/-- The `stage6_config` payload written into the stage 6 metadata
(`_stage6_config_payload`): every config field plus the derived
`max_chars_per_block`. -/
structure Stage6Payload where
  merge_gap_ms : Int
  max_block_ms : Int
  min_block_ms : Int
  max_lines : Nat
  chars_per_line : Nat
  target_chars_per_sec : ℚ
  max_chars_per_block : Nat
deriving DecidableEq, Repr

/-- `_stage6_config_payload` from `subtitles.py`. -/
def stage6ConfigPayload (c : Stage6Config) : Stage6Payload :=
  ⟨c.merge_gap_ms, c.max_block_ms, c.min_block_ms, c.max_lines,
   c.chars_per_line, c.target_chars_per_sec, c.max_chars_per_block⟩

/-- The stage 6 metadata sidecar (`subtitle_blocks_ja.meta.json`). -/
structure Stage6Meta where
  stage : String
  version : Int
  input_fingerprint : Fingerprint
  stage6_config : Stage6Payload
  blocks_sha256 : List BlockOut
deriving DecidableEq, Repr

/-- The workspace files stage 6 reads and writes: the gated segments
artifact, the gate's metadata sidecar (opaque bytes), the blocks artifact
and the stage 6 metadata sidecar (`none` = file absent). -/
structure Stage6State where
  segments : Option (List Segment)
  segmentsMeta : Option String
  blocks : Option (List BlockOut)
  meta : Option Stage6Meta
deriving DecidableEq, Repr

/-- Stable insertion of a segment into a sorted list (Python's stable
`list.sort(key=(start_ms, end_ms))` in `_load_gated_segments`). -/
def insertSegmentSorted (s : Segment) : List Segment → List Segment
  | [] => [s]
  | c :: l =>
    if c.start_ms < s.start_ms ∨ (c.start_ms = s.start_ms ∧ c.end_ms ≤ s.end_ms)
    then c :: insertSegmentSorted s l
    else s :: c :: l

/-- The sort in `_load_gated_segments`. -/
def sortSegments (segments : List Segment) : List Segment :=
  segments.foldl (fun acc s => insertSegmentSorted s acc) []

deriving instance DecidableEq for Except

/-- `build_subtitle_blocks_ja` from `subtitles.py` as a transition on the
workspace state: returns the updated state and whether the stage
recomputed (`false` = cache hit, zero writes). -/
def stage6Run (config : Stage6Config) (st : Stage6State) :
    Except String (Stage6State × Bool) :=
  match st.segments with
  | none => .error "segments.gated.json not found"
  | some segContent =>
    let fp := match st.segmentsMeta with
      | some m => Fingerprint.ofMeta m
      | none => Fingerprint.ofSegments segContent
    let hit : Bool := match st.blocks, st.meta with
      | some bl, some m =>
        decide (m.stage = "stage6") && decide (m.version = 1) &&
        decide (m.input_fingerprint = fp) &&
        decide (m.stage6_config = stage6ConfigPayload config) &&
        decide (m.blocks_sha256 = bl)
      | _, _ => false
    if hit then .ok (st, false)
    else
      let out := buildSubtitleBlocks (sortSegments segContent) config
      let newMeta : Stage6Meta :=
        ⟨"stage6", 1, fp, stage6ConfigPayload config, out⟩
      .ok ({ st with blocks := some out, meta := some newMeta }, true)

/-! ## Theorems -/

section Theorems

attribute [local semireducible] Rat.mul Rat.inv Rat.add Rat.sub

/-- C6: for every segment text, duration, language and `GateConfig`, the
drop decision of `_should_drop` equals the first matching rule of the
ordered list empty, punct-only, too-short, too-fast, low-script-ratio,
repeated-char (no later rule is consulted once one matches); the too-short
rule fires only when the duration is at least one second, so sub-second
segments are exempt from it while remaining subject to the later rules. -/
theorem gate_rule_order_first_match_wins (text : String) (duration_sec : ℚ)
    (language : String) (config : GateConfig) :
    should_drop text duration_sec language config =
      match (gateRules config duration_sec language).find? (fun r => r.2 text) with
      | some r => (true, r.1)
      | none => (false, "") := by
  cases h1 : (pyStrip text).data.isEmpty <;>
  cases h2 : config.drop_if_contains_only_punct &&
    (strip_punct_and_space text).data.isEmpty <;>
  cases h3 : decide (((pyStrip text).length : Int) < config.min_text_chars) &&
    decide ((1 : ℚ) ≤ duration_sec) <;>
  cases h4 : decide (config.max_chars_per_sec <
    ((pyStrip text).length : ℚ) / duration_sec) <;>
  cases h5 : (language == "ja") &&
    decide (japanese_char_ratio text < config.min_japanese_char_ratio) <;>
  cases h6 : decide (config.max_repeated_char_ratio < repeated_char_ratio text) <;>
  simp [should_drop, gateRules, List.find?, h1, h2, h3, h4, h5, h6]

/-- C10: the duration that `gate_segments` feeds into the per-segment drop
decision is clamped below by the positive constant `1e-6` before any
division, for every pair of integer timestamps — including malformed
segments with `end_ms ≤ start_ms` — so the characters-per-second rule never
divides by zero and `_should_drop` is total. -/
theorem gate_duration_clamped_positive (start_ms end_ms : Int) :
    (1/1000000 : ℚ) ≤ gateDurationSec start_ms end_ms ∧
      0 < gateDurationSec start_ms end_ms := by
  constructor
  · exact le_max_right _ _
  · exact lt_of_lt_of_le (by norm_num) (le_max_right _ _)

/-- C5: one step of the Phase A pass extends the current open block with
the next segment iff all four spec conditions hold (gap, merged duration,
merged chars, merged chars-per-second with the 20% tolerance); otherwise
it closes the current block and opens a new one at that segment. -/
theorem merge_extends_iff_conditions (config : Stage6Config) (current : Block)
    (seg : Segment) (rest : List Segment) :
    mergeLoop config current (seg :: rest) =
      if specExtendConditions current seg config then
        mergeLoop config (extendedBlock current seg) rest
      else
        current :: mergeLoop config (openedBlock seg) rest := by
  simp only [mergeLoop, specExtendConditions, extendedBlock, openedBlock]

/-- C4: on the gated segments `(0,500,"ああああ"), (600,1100,"いいい"),
(3000,9000,"かかかかか。きききききき")` with `merge_gap_ms=150,
max_block_ms=6000, chars_per_line=5, max_lines=2,
target_chars_per_sec=10.0`, the block builder (Phase A merge then Phase B
enforcement) emits exactly 3 blocks; the first spans `[0,1100]`, the
second's text ends in `。` and its `end_ms` is `6000`. -/
theorem build_blocks_concrete_scenario :
    buildSubtitleBlocks
        [⟨0, 500, "ああああ"⟩, ⟨600, 1100, "いいい"⟩,
         ⟨3000, 9000, "かかかかか。きききききき"⟩]
        { merge_gap_ms := 150, max_block_ms := 6000, max_lines := 2,
          chars_per_line := 5, target_chars_per_sec := 10 } =
      [⟨1, 0, 1100, "ああああいいい"⟩, ⟨2, 3000, 6000, "かかかかか。"⟩,
       ⟨3, 6000, 9000, "きききききき"⟩] := by
  decide

/-- Consolidation legality only becomes harder when the right neighbor has
absorbed later material (same start, later end). -/
theorem canConsolidate_mono (config : Stage6Config) (b n e : Block)
    (hs : e.start_ms = n.start_ms) (he : n.end_ms ≤ e.end_ms)
    (h : canConsolidate config b e = true) : canConsolidate config b n = true := by
  simp only [canConsolidate, blockGap, consolidate, block_duration,
    Bool.and_eq_true, decide_eq_true_eq] at h ⊢
  omega

/-- A block that has absorbed later material is at least as long as the
block it started from. -/
theorem shortBlock_mono (config : Stage6Config) (n e : Block)
    (hs : e.start_ms = n.start_ms) (he : n.end_ms ≤ e.end_ms)
    (h : shortBlock config e = true) : shortBlock config n = true := by
  simp only [shortBlock, block_duration, decide_eq_true_eq] at h ⊢
  omega

/-- The head of a Phase C pass output extends the head of its input: same
start, equal-or-later end. -/
theorem msbAux_head (config : Stage6Config) :
    ∀ (fuel : Nat) (x : Block) (xs : List Block),
      ∃ e tail, msbAux config fuel (x :: xs) = e :: tail ∧
        e.start_ms = x.start_ms ∧ x.end_ms ≤ e.end_ms := by
  intro fuel
  induction fuel with
  | zero =>
    intro x xs
    cases xs with
    | nil => exact ⟨x, [], rfl, rfl, le_rfl⟩
    | cons y ys => exact ⟨x, y :: ys, rfl, rfl, le_rfl⟩
  | succ fuel ih =>
    intro x xs
    cases xs with
    | nil => exact ⟨x, [], rfl, rfl, le_rfl⟩
    | cons n rest =>
      by_cases hc : ((shortBlock config x || shortBlock config n) &&
          canConsolidate config x n) = true
      · obtain ⟨e, tail, heq, hstart, hend⟩ := ih (consolidate x n) rest
        refine ⟨e, tail, ?_, ?_, ?_⟩
        · simpa [msbAux, hc] using heq
        · simpa [consolidate] using hstart
        · have : x.end_ms ≤ (consolidate x n).end_ms := le_max_left _ _
          exact le_trans this hend
      · exact ⟨x, msbAux config fuel (n :: rest), by simp [msbAux, hc], rfl, le_rfl⟩

/-- Every adjacent pair in a Phase C pass output satisfies the
no-missed-consolidation postcondition, for sufficient fuel. -/
theorem msbAux_chain (config : Stage6Config) :
    ∀ (fuel : Nat) (l : List Block), l.length ≤ fuel →
      List.Chain' (noMissedConsolidation config) (msbAux config fuel l) := by
  intro fuel
  induction fuel with
  | zero =>
    intro l hl
    have : l = [] := List.length_eq_zero.mp (Nat.le_zero.mp hl)
    simp [this, msbAux]
  | succ fuel ih =>
    intro l hl
    match l with
    | [] => simp [msbAux]
    | [b] => simp [msbAux]
    | b :: n :: rest =>
      by_cases hc : ((shortBlock config b || shortBlock config n) &&
          canConsolidate config b n) = true
      · have hlen : (consolidate b n :: rest).length ≤ fuel := by
          simp at hl ⊢; omega
        simpa [msbAux, hc] using ih (consolidate b n :: rest) hlen
      · have hlen : (n :: rest).length ≤ fuel := by simp at hl ⊢; omega
        obtain ⟨e, tail, heq, hstart, hend⟩ := msbAux_head config fuel n rest
        have hchain := ih (n :: rest) hlen
        rw [heq] at hchain
        have hcond : (shortBlock config b = false ∧ shortBlock config n = false) ∨
            canConsolidate config b n = false := by
          by_cases hcc : canConsolidate config b n = true
          · refine Or.inl ⟨?_, ?_⟩
            · cases hsb : shortBlock config b
              · rfl
              · exact absurd (by simp [hsb, hcc]) hc
            · cases hsn : shortBlock config n
              · rfl
              · exact absurd (by simp [hsn, hcc]) hc
          · exact Or.inr (Bool.not_eq_true _ |>.mp hcc)
        have hR : noMissedConsolidation config b e := by
          constructor
          · intro hshort
            by_contra hce
            have hce' : canConsolidate config b e = true :=
              Bool.not_eq_false _ |>.mp hce
            have := canConsolidate_mono config b n e hstart hend hce'
            rcases hcond with ⟨hb, _⟩ | hcc
            · exact absurd hshort (by simp [hb])
            · exact absurd this (by simp [hcc])
          · intro hshort
            by_contra hce
            have hce' : canConsolidate config b e = true :=
              Bool.not_eq_false _ |>.mp hce
            have hsn := shortBlock_mono config n e hstart hend hshort
            have := canConsolidate_mono config b n e hstart hend hce'
            rcases hcond with ⟨_, hn⟩ | hcc
            · exact absurd hsn (by simp [hn])
            · exact absurd this (by simp [hcc])
        have : msbAux config (fuel + 1) (b :: n :: rest) =
            b :: msbAux config fuel (n :: rest) := by simp [msbAux, hc]
        rw [this, heq]
        exact List.Chain'.cons hR hchain

/-- `String.mk` preserves length. -/
theorem length_mk (l : List Char) : (String.mk l).length = l.length := rfl

/-- The `cons` unfolding of `wrapChunks` at positive budget. -/
theorem wrapChunks_cons (chars_per_line budget : Nat) (c : Char)
    (cs : List Char) :
    wrapChunks chars_per_line (budget + 1) (c :: cs) =
      if (c :: cs).length ≤ chars_per_line then ([c :: cs], [])
      else
        ((c :: cs).take (wrapSplitIdx chars_per_line (c :: cs)) ::
          (wrapChunks chars_per_line budget
            ((c :: cs).drop (wrapSplitIdx chars_per_line (c :: cs)))).1,
         (wrapChunks chars_per_line budget
           ((c :: cs).drop (wrapSplitIdx chars_per_line (c :: cs)))).2) := rfl

/-- The `cons` unfolding of `wrapRemAux` at positive fuel. -/
theorem wrapRemAux_cons (chars_per_line fuel : Nat) (c : Char)
    (cs : List Char) :
    wrapRemAux chars_per_line (fuel + 1) (c :: cs) =
      if (c :: cs).length ≤ chars_per_line then [c :: cs]
      else (c :: cs).take chars_per_line ::
        wrapRemAux chars_per_line fuel ((c :: cs).drop chars_per_line) := rfl

/-- The window scan never proposes a break beyond the width boundary. -/
theorem wrapSplitIdx_le (chars_per_line : Nat) (rem : List Char) :
    wrapSplitIdx chars_per_line rem ≤ chars_per_line := by
  simp only [wrapSplitIdx]
  split
  · next idx heq =>
    have hmem := List.mem_of_find?_eq_some heq
    rw [List.mem_reverse] at hmem
    have h2 := List.mem_range'.mp hmem
    omega
  · exact le_rfl

/-- Every chunk the main wrap loop produces is within the width. -/
theorem wrapChunks_chunk_le (chars_per_line : Nat) :
    ∀ (budget : Nat) (rem : List Char),
      ∀ chunk ∈ (wrapChunks chars_per_line budget rem).1,
        chunk.length ≤ chars_per_line := by
  intro budget
  induction budget with
  | zero => intro rem chunk h; simp [wrapChunks] at h
  | succ budget ih =>
    intro rem chunk h
    cases rem with
    | nil => simp [wrapChunks] at h
    | cons c cs =>
      rw [wrapChunks_cons] at h
      by_cases hlen : (c :: cs).length ≤ chars_per_line
      · rw [if_pos hlen] at h
        simp only [List.mem_singleton] at h
        subst h
        exact hlen
      · rw [if_neg hlen] at h
        simp only [List.mem_cons] at h
        rcases h with h | h
        · subst h
          have hsi := wrapSplitIdx_le chars_per_line (c :: cs)
          rw [List.length_take]
          omega
        · exact ih _ chunk h

/-- When the main wrap loop leaves a remainder, it has used its whole
line budget. -/
theorem wrapChunks_leftover_full (chars_per_line : Nat) :
    ∀ (budget : Nat) (rem : List Char),
      (wrapChunks chars_per_line budget rem).2 ≠ [] →
      (wrapChunks chars_per_line budget rem).1.length = budget := by
  intro budget
  induction budget with
  | zero => intro rem _; simp [wrapChunks]
  | succ budget ih =>
    intro rem h
    cases rem with
    | nil => simp [wrapChunks] at h
    | cons c cs =>
      rw [wrapChunks_cons] at h ⊢
      by_cases hlen : (c :: cs).length ≤ chars_per_line
      · rw [if_pos hlen] at h
        simp at h
      · rw [if_neg hlen] at h ⊢
        simpa using ih _ h

/-- Every overflow-continuation line is within the width (for positive
width and sufficient fuel). -/
theorem wrapRemAux_le (chars_per_line : Nat) (hcpl : 1 ≤ chars_per_line) :
    ∀ (fuel : Nat) (rem : List Char), rem.length ≤ fuel →
      ∀ l ∈ wrapRemAux chars_per_line fuel rem, l.length ≤ chars_per_line := by
  intro fuel
  induction fuel with
  | zero =>
    intro rem hrem l h
    cases rem with
    | nil => simp [wrapRemAux] at h
    | cons c cs => simp at hrem
  | succ fuel ih =>
    intro rem hrem l h
    cases rem with
    | nil => simp [wrapRemAux] at h
    | cons c cs =>
      rw [wrapRemAux_cons] at h
      by_cases hlen : (c :: cs).length ≤ chars_per_line
      · rw [if_pos hlen] at h
        simp only [List.mem_singleton] at h
        subst h
        exact hlen
      · rw [if_neg hlen] at h
        simp only [List.mem_cons] at h
        rcases h with h | h
        · subst h
          rw [List.length_take]
          omega
        · refine ih _ ?_ l h
          simp only [List.length_cons] at hrem hlen ⊢
          rw [List.length_drop]
          simp only [List.length_cons]
          omega

/-- C7 core: for positive width, every line `wrap_japanese` emits is
within `chars_per_line` (the raw-remainder append is dead code: a
remainder only survives when the full line budget was used). -/
theorem wrap_japanese_line_le (text : String) (chars_per_line max_lines : Nat)
    (hcpl : 1 ≤ chars_per_line) :
    ∀ l ∈ wrap_japanese text chars_per_line max_lines,
      l.length ≤ chars_per_line := by
  intro l hl
  simp only [wrap_japanese, List.mem_map] at hl
  obtain ⟨chunk, hchunk, rfl⟩ := hl
  rw [length_mk]
  by_cases hleft : (wrapChunks chars_per_line max_lines text.data).2.isEmpty
  · rw [if_pos hleft] at hchunk
    exact wrapChunks_chunk_le chars_per_line max_lines text.data chunk hchunk
  · rw [if_neg hleft] at hchunk
    have hfull := wrapChunks_leftover_full chars_per_line max_lines text.data
      (by simpa [List.isEmpty_iff] using hleft)
    rw [if_neg (by omega)] at hchunk
    rcases List.mem_append.mp hchunk with h | h
    · exact wrapChunks_chunk_le chars_per_line max_lines text.data chunk h
    · exact wrapRemAux_le chars_per_line hcpl _ _ le_rfl chunk h

/-- The wrap chunks and remainder concatenate back to the input text. -/
theorem wrapChunks_join (chars_per_line : Nat) :
    ∀ (budget : Nat) (rem : List Char),
      (wrapChunks chars_per_line budget rem).1.flatten ++
        (wrapChunks chars_per_line budget rem).2 = rem := by
  intro budget
  induction budget with
  | zero => intro rem; simp [wrapChunks]
  | succ budget ih =>
    intro rem
    cases rem with
    | nil => simp [wrapChunks]
    | cons c cs =>
      rw [wrapChunks_cons]
      by_cases hlen : (c :: cs).length ≤ chars_per_line
      · rw [if_pos hlen]; simp
      · rw [if_neg hlen]
        simp only [List.flatten_cons, List.append_assoc]
        rw [ih]
        exact List.take_append_drop _ _

/-- The overflow continuation concatenates back to its input. -/
theorem wrapRemAux_join (chars_per_line : Nat) :
    ∀ (fuel : Nat) (rem : List Char),
      (wrapRemAux chars_per_line fuel rem).flatten = rem := by
  intro fuel
  induction fuel with
  | zero => intro rem; cases rem <;> simp [wrapRemAux]
  | succ fuel ih =>
    intro rem
    cases rem with
    | nil => simp [wrapRemAux]
    | cons c cs =>
      rw [wrapRemAux_cons]
      by_cases hlen : (c :: cs).length ≤ chars_per_line
      · rw [if_pos hlen]; simp
      · rw [if_neg hlen]
        simp only [List.flatten_cons]
        rw [ih]
        exact List.take_append_drop _ _

/-- Folding string append over packed char lists packs the flattening. -/
theorem foldl_append_mk (l : List (List Char)) :
    ∀ acc : String,
      (l.map (fun c => (⟨c⟩ : String))).foldl (· ++ ·) acc =
        ⟨acc.data ++ l.flatten⟩ := by
  induction l with
  | nil => intro acc; obtain ⟨ad⟩ := acc; simp
  | cons c rest ih =>
    intro acc
    obtain ⟨ad⟩ := acc
    simp only [List.map_cons, List.foldl_cons, List.flatten_cons]
    rw [ih]
    show String.mk ((ad ++ c) ++ rest.flatten) = String.mk (ad ++ (c ++ rest.flatten))
    exact congrArg String.mk (List.append_assoc ad c rest.flatten)

/-- `String.join` undoes `wrap_japanese`: no text is lost or reordered by
wrapping, for any width and line budget. -/
theorem wrap_japanese_join (text : String) (chars_per_line max_lines : Nat) :
    String.join (wrap_japanese text chars_per_line max_lines) = text := by
  unfold wrap_japanese String.join
  rw [foldl_append_mk]
  by_cases hleft : (wrapChunks chars_per_line max_lines text.data).2.isEmpty
  · rw [if_pos hleft]
    have := wrapChunks_join chars_per_line max_lines text.data
    rw [List.isEmpty_iff.mp hleft, List.append_nil] at this
    simp [this]
  · rw [if_neg hleft]
    by_cases hfull : (wrapChunks chars_per_line max_lines text.data).1.length <
        max_lines
    · rw [if_pos hfull]
      simp only [List.flatten_append, List.flatten_cons, List.flatten_nil,
        List.append_nil, String.data]
      rw [wrapChunks_join]
      simp
    · rw [if_neg hfull]
      simp only [List.flatten_append, String.data]
      rw [wrap_remaining, wrapRemAux_join, wrapChunks_join]
      simp

/-- `String.mk` then `String.data` is the identity. -/
theorem data_mk (l : List Char) : (String.mk l).data = l := rfl

/-- `String.join` as one packed flattening. -/
theorem join_eq_mk (l : List String) :
    String.join l = ⟨(l.map String.data).flatten⟩ := by
  have h : ∀ (m : List String) (acc : String),
      m.foldl (· ++ ·) acc = ⟨acc.data ++ (m.map String.data).flatten⟩ := by
    intro m
    induction m with
    | nil => intro acc; obtain ⟨ad⟩ := acc; simp
    | cons s rest ih =>
      intro acc
      obtain ⟨ad⟩ := acc
      obtain ⟨sd⟩ := s
      simp only [List.foldl_cons, List.map_cons, List.flatten_cons]
      rw [ih]
      show String.mk ((ad ++ sd) ++ _) = String.mk (ad ++ (sd ++ _))
      exact congrArg String.mk (List.append_assoc _ _ _)
  simpa using h l ""

/-- Forced wrapping never exceeds the line budget (for a positive budget). -/
theorem force_wrapped_length_le (text : String) (chars_per_line max_lines : Nat)
    (hml : 1 ≤ max_lines) :
    (force_wrapped_lines text chars_per_line max_lines).length ≤ max_lines := by
  unfold force_wrapped_lines
  by_cases hl : (wrap_japanese text chars_per_line max_lines).length ≤ max_lines
  · rw [if_pos hl]; exact hl
  · rw [if_neg hl]
    rw [List.length_append, List.length_take]
    simp only [List.length_singleton]
    omega

/-- All forced-wrap lines except possibly the last are within the width. -/
theorem force_wrapped_dropLast_le (text : String)
    (chars_per_line max_lines : Nat) (hcpl : 1 ≤ chars_per_line) :
    ∀ l ∈ (force_wrapped_lines text chars_per_line max_lines).dropLast,
      l.length ≤ chars_per_line := by
  unfold force_wrapped_lines
  by_cases hl : (wrap_japanese text chars_per_line max_lines).length ≤ max_lines
  · rw [if_pos hl]
    intro l hmem
    exact wrap_japanese_line_le text chars_per_line max_lines hcpl l
      (List.dropLast_subset _ hmem)
  · rw [if_neg hl]
    intro l hmem
    rw [List.dropLast_concat] at hmem
    exact wrap_japanese_line_le text chars_per_line max_lines hcpl l
      (List.take_subset _ _ hmem)

/-- Forced wrapping loses no text: the lines join back to the input. -/
theorem force_wrapped_join (text : String) (chars_per_line max_lines : Nat) :
    String.join (force_wrapped_lines text chars_per_line max_lines) = text := by
  unfold force_wrapped_lines
  by_cases hl : (wrap_japanese text chars_per_line max_lines).length ≤ max_lines
  · rw [if_pos hl]; exact wrap_japanese_join text chars_per_line max_lines
  · rw [if_neg hl]
    rw [join_eq_mk, join_eq_mk]
    simp only [List.map_append, List.map_cons, List.map_nil, data_mk,
      List.flatten_append, List.flatten_cons, List.flatten_nil,
      List.append_nil]
    rw [← List.flatten_append, ← List.map_append, List.take_append_drop]
    rw [← join_eq_mk]
    exact wrap_japanese_join text chars_per_line max_lines

/-- A block spanning at most one millisecond is never time-split by the
render stage. -/
theorem split_keeps_tiny_block (b : RawBlock)
    (hdur : b.end_ms - b.start_ms ≤ 1) : split_block_for_srt b = [b] := by
  unfold split_block_for_srt
  by_cases htext : b.text.length ≤ 1
  · rw [if_pos htext]
  · rw [if_neg htext]
    simp only [if_pos hdur]

/-- The per-entry invariant of the prepared list, for every fuel value. -/
theorem prepAux_invariant (chars_per_line max_lines : Nat)
    (hcpl : 1 ≤ chars_per_line) (hml : 1 ≤ max_lines) :
    ∀ (fuel : Nat) (queue : List RawBlock) (p : PreparedBlock),
      p ∈ prepAux chars_per_line max_lines fuel queue →
      (renderLines p chars_per_line max_lines).length ≤ max_lines ∧
      (∀ l ∈ (renderLines p chars_per_line max_lines).dropLast,
        l.length ≤ chars_per_line) ∧
      (p.lines = none →
        ∀ l ∈ renderLines p chars_per_line max_lines,
          l.length ≤ chars_per_line) := by
  intro fuel
  induction fuel with
  | zero =>
    intro queue p h
    cases queue <;> simp [prepAux] at h
  | succ fuel ih =>
    intro queue p h
    cases queue with
    | nil => simp [prepAux] at h
    | cons b q =>
      simp only [prepAux] at h
      by_cases h1 : (wrap_japanese b.text chars_per_line max_lines).length ≤
          max_lines
      · rw [if_pos h1] at h
        rcases List.mem_cons.mp h with rfl | h
        · refine ⟨h1, ?_, ?_⟩
          · intro l hmem
            exact wrap_japanese_line_le b.text chars_per_line max_lines hcpl l
              (List.dropLast_subset _ hmem)
          · intro _ l hmem
            exact wrap_japanese_line_le b.text chars_per_line max_lines hcpl l
              hmem
        · exact ih q p h
      · rw [if_neg h1] at h
        by_cases h2 : split_block_for_srt b = [b]
        · rw [if_pos h2] at h
          rcases List.mem_cons.mp h with rfl | h
          · refine ⟨?_, ?_, ?_⟩
            · exact force_wrapped_length_le b.text chars_per_line max_lines hml
            · exact force_wrapped_dropLast_le b.text chars_per_line max_lines
                hcpl
            · intro hnone
              exact absurd hnone (by simp)
          · exact ih q p h
        · rw [if_neg h2] at h
          exact ih _ p h

/-- C7: with `chars_per_line ≥ 1` and `max_lines ≥ 1`, every block the
render stage prepares satisfies the wrapping invariant: its rendered line
list has at most `max_lines` lines and every line except possibly the
last is within `chars_per_line`; for a block not flagged with forced
overflow lines, every line (the last included) is within
`chars_per_line`. -/
theorem render_wrap_constraints (blocks : List RawBlock)
    (chars_per_line max_lines : Nat) (hcpl : 1 ≤ chars_per_line)
    (hml : 1 ≤ max_lines) :
    ∀ p ∈ prepare_srt_blocks blocks chars_per_line max_lines,
      (renderLines p chars_per_line max_lines).length ≤ max_lines ∧
      (∀ l ∈ (renderLines p chars_per_line max_lines).dropLast,
        l.length ≤ chars_per_line) ∧
      (p.lines = none →
        ∀ l ∈ renderLines p chars_per_line max_lines,
          l.length ≤ chars_per_line) := by
  intro p h
  exact prepAux_invariant chars_per_line max_lines hcpl hml _ blocks p h

/-- Witness for C7 at a concrete block list. -/
theorem render_wrap_constraints_witness :
    (renderLines ⟨0, 1000, "あああ", none⟩ 2 2).length ≤ 2 ∧
      (∀ l ∈ (renderLines ⟨0, 1000, "あああ", none⟩ 2 2).dropLast,
        l.length ≤ 2) ∧
      ((⟨0, 1000, "あああ", none⟩ : PreparedBlock).lines = none →
        ∀ l ∈ renderLines ⟨0, 1000, "あああ", none⟩ 2 2, l.length ≤ 2) :=
  render_wrap_constraints [⟨0, 1000, "あああ"⟩] 2 2 (by decide) (by decide)
    ⟨0, 1000, "あああ", none⟩ (by decide)

/-- C8: a block spanning at most 1 ms whose text wraps past the line
budget is not time-split: the render stage keeps it at its original
`start_ms`/`end_ms`, renders it through the forced wrap, and the forced
lines concatenate back to the full original text — nothing truncated,
dropped, or failing. -/
theorem unsplittable_block_renders_whole (b : RawBlock)
    (chars_per_line max_lines : Nat) (hdur : b.end_ms - b.start_ms ≤ 1)
    (hwrap : max_lines <
      (wrap_japanese b.text chars_per_line max_lines).length) :
    prepare_srt_blocks [b] chars_per_line max_lines =
      [⟨b.start_ms, b.end_ms, b.text,
        some (force_wrapped_lines b.text chars_per_line max_lines)⟩] ∧
    String.join (force_wrapped_lines b.text chars_per_line max_lines) =
      b.text := by
  constructor
  · unfold prepare_srt_blocks
    simp only [prepAux]
    rw [if_neg (by omega), if_pos (split_keeps_tiny_block b hdur)]
  · exact force_wrapped_join b.text chars_per_line max_lines

/-- Witness for C8 at a concrete tiny block. -/
theorem unsplittable_block_renders_whole_witness :
    prepare_srt_blocks [⟨0, 1, "あああ"⟩] 1 1 =
      [⟨0, 1, "あああ", some (force_wrapped_lines "あああ" 1 1)⟩] ∧
    String.join (force_wrapped_lines "あああ" 1 1) = "あああ" :=
  unsplittable_block_renders_whole ⟨0, 1, "あああ"⟩ 1 1 (by decide) (by decide)

/-- C1 (Phase C, modelled from the spec since `_merge_short_blocks` is
absent from the available sources): in the artifact the short-block
consolidation pass emits, every remaining block shorter than
`min_block_ms` has no adjacent neighbor it could legally have been merged
into (gap `<= merge_gap_ms` and merged duration `<= max_block_ms`) — a
short block survives only when no such neighbor exists, and otherwise it
was merged away. -/
theorem short_blocks_consolidated_or_isolated (config : Stage6Config)
    (blocks : List Block) :
    List.Chain' (noMissedConsolidation config)
      (merge_short_blocks config blocks) :=
  msbAux_chain config blocks.length blocks le_rfl

/-- The translation table is idempotent on characters: its outputs are
never translated again. -/
theorem translateJa_fixes (c : Char) :
    translateJa (translateJa c) = translateJa c := by
  unfold translateJa
  split_ifs <;> simp_all

/-- The plain space is untouched by the translation table. -/
theorem translateJa_space : translateJa ' ' = ' ' := by decide

/-- Japanese punctuation marks are not whitespace. -/
theorem isJaPunct_not_space (c : Char) (h : isJaPunct c = true) :
    pyIsSpace c = false := by
  simp only [isJaPunct, Bool.or_eq_true, decide_eq_true_eq] at h
  rcases h with ((rfl | rfl) | rfl) | rfl <;> decide

/-- The head survivor of `dropWhile` does not satisfy the predicate. -/
theorem head_dropWhile_not (p : Char → Bool) :
    ∀ (l : List Char), ∀ b ∈ (l.dropWhile p).head?, ¬ p b = true := by
  intro l
  induction l with
  | nil => intro b h; simp at h
  | cons c cs ih =>
    intro b h
    by_cases hp : p c = true
    · rw [List.dropWhile_cons, if_pos hp] at h
      exact ih b h
    · rw [List.dropWhile_cons, if_neg hp] at h
      simp only [List.head?_cons, Option.mem_some_iff] at h
      subst h
      exact hp

/-- `dropWhile` is the identity when the head (if any) fails the
predicate. -/
theorem dropWhile_eq_self_of_head (p : Char → Bool) (l : List Char)
    (h : ∀ b ∈ l.head?, ¬ p b = true) : l.dropWhile p = l := by
  cases l with
  | nil => rfl
  | cons c cs =>
    rw [List.dropWhile_cons, if_neg (h c (by simp))]

/-- Characters of a collapsed string: spaces or input characters. -/
theorem collapseWsAux_mem :
    ∀ (fuel : Nat) (l : List Char), ∀ c ∈ collapseWsAux fuel l,
      c = ' ' ∨ c ∈ l := by
  intro fuel
  induction fuel with
  | zero =>
    intro l c h
    cases l with
    | nil => simp [collapseWsAux] at h
    | cons a as => exact Or.inr (by simpa [collapseWsAux] using h)
  | succ fuel ih =>
    intro l c h
    cases l with
    | nil => simp [collapseWsAux] at h
    | cons a as =>
      simp only [collapseWsAux] at h
      by_cases hws : pyIsSpace a = true
      · rw [if_pos hws] at h
        rcases List.mem_cons.mp h with rfl | h
        · exact Or.inl rfl
        · rcases ih _ c h with h | h
          · exact Or.inl h
          · exact Or.inr (List.mem_cons_of_mem _
              ((List.dropWhile_sublist pyIsSpace).subset h))
      · rw [if_neg hws] at h
        rcases List.mem_cons.mp h with rfl | h
        · exact Or.inr (List.mem_cons_self _ _)
        · rcases ih _ c h with h | h
          · exact Or.inl h
          · exact Or.inr (List.mem_cons_of_mem _ h)

/-- A suffix of a whitespace-normal list is whitespace-normal. -/
theorem wsSingle_of_suffix {l l' : List Char} (h : WsSingle l)
    (hs : l' <:+ l) : WsSingle l' :=
  ⟨fun c hc => h.1 c (hs.subset hc), h.2.suffix hs⟩

/-- The tail of a whitespace-normal list is whitespace-normal. -/
theorem wsSingle_tail {c : Char} {cs : List Char} (h : WsSingle (c :: cs)) :
    WsSingle cs :=
  wsSingle_of_suffix h (List.suffix_cons c cs)

/-- The head of a collapsed-from-non-space list stays non-space. -/
theorem collapseWsAux_head_not_ws :
    ∀ (fuel : Nat) (l : List Char), (∀ b ∈ l.head?, ¬ pyIsSpace b = true) →
      ∀ b ∈ (collapseWsAux fuel l).head?, ¬ pyIsSpace b = true := by
  intro fuel l hl b hb
  cases l with
  | nil => simp [collapseWsAux] at hb
  | cons a as =>
    have ha : ¬ pyIsSpace a = true := hl a (by simp)
    cases fuel with
    | zero =>
      simp only [collapseWsAux, List.head?_cons, Option.mem_some_iff] at hb
      subst hb; exact ha
    | succ fuel =>
      simp only [collapseWsAux, if_neg ha, List.head?_cons,
        Option.mem_some_iff] at hb
      subst hb; exact ha

/-- The output of the whitespace collapse is whitespace-normal. -/
theorem collapseWsAux_wsSingle :
    ∀ (fuel : Nat) (l : List Char), l.length ≤ fuel →
      WsSingle (collapseWsAux fuel l) := by
  intro fuel
  induction fuel with
  | zero =>
    intro l hl
    have : l = [] := List.length_eq_zero.mp (Nat.le_zero.mp hl)
    subst this
    exact ⟨by simp [collapseWsAux], by simp [collapseWsAux]⟩
  | succ fuel ih =>
    intro l hl
    cases l with
    | nil => exact ⟨by simp [collapseWsAux], by simp [collapseWsAux]⟩
    | cons a as =>
      simp only [List.length_cons] at hl
      by_cases hws : pyIsSpace a = true
      · have hlen : (as.dropWhile pyIsSpace).length ≤ fuel :=
          le_trans (List.dropWhile_sublist pyIsSpace).length_le (by omega)
        have hrest := ih (as.dropWhile pyIsSpace) hlen
        simp only [collapseWsAux, if_pos hws]
        refine ⟨?_, ?_⟩
        · intro c hc
          rcases List.mem_cons.mp hc with rfl | hc
          · intro _; rfl
          · exact hrest.1 c hc
        · rw [List.chain'_cons']
          refine ⟨?_, hrest.2⟩
          intro b hb
          have hbw := collapseWsAux_head_not_ws fuel (as.dropWhile pyIsSpace)
            (head_dropWhile_not pyIsSpace as) b hb
          exact fun hcon => hbw hcon.2
      · have hrest := ih as (by omega)
        simp only [collapseWsAux, if_neg hws]
        refine ⟨?_, ?_⟩
        · intro c hc
          rcases List.mem_cons.mp hc with rfl | hc
          · intro hcon; exact absurd hcon hws
          · exact hrest.1 c hc
        · rw [List.chain'_cons']
          exact ⟨fun b _ hcon => hws hcon.1, hrest.2⟩

/-- The whitespace collapse fixes whitespace-normal strings. -/
theorem collapseWsAux_eq_self :
    ∀ (fuel : Nat) (l : List Char), l.length ≤ fuel → WsSingle l →
      collapseWsAux fuel l = l := by
  intro fuel
  induction fuel with
  | zero =>
    intro l hl _
    have : l = [] := List.length_eq_zero.mp (Nat.le_zero.mp hl)
    subst this; rfl
  | succ fuel ih =>
    intro l hl hP
    cases l with
    | nil => rfl
    | cons a as =>
      simp only [List.length_cons] at hl
      by_cases hws : pyIsSpace a = true
      · have ha : a = ' ' := hP.1 a (by simp) hws
        cases as with
        | nil => simp [collapseWsAux, hws, ha]
        | cons d ds =>
          have hpair := (List.chain'_cons.mp hP.2).1
          have hd : ¬ pyIsSpace d = true := fun hdw => hpair ⟨hws, hdw⟩
          simp only [collapseWsAux, if_pos hws, List.dropWhile_cons,
            if_neg hd]
          rw [ih (d :: ds) (by simpa using hl) (wsSingle_tail hP), ha]
      · simp only [collapseWsAux, if_neg hws]
        rw [ih as (by omega) (wsSingle_tail hP)]

/-- The head of the punctuation-stripped output stays non-space when the
input head is non-space. -/
theorem stripAroundPunctAux_head_not_ws :
    ∀ (fuel : Nat) (l : List Char), (∀ b ∈ l.head?, ¬ pyIsSpace b = true) →
      ∀ b ∈ (stripAroundPunctAux fuel l).head?, ¬ pyIsSpace b = true := by
  intro fuel l hl b hb
  cases l with
  | nil => simp [stripAroundPunctAux] at hb
  | cons a as =>
    have ha : ¬ pyIsSpace a = true := hl a (by simp)
    cases fuel with
    | zero =>
      simp only [stripAroundPunctAux, List.head?_cons,
        Option.mem_some_iff] at hb
      subst hb; exact ha
    | succ fuel =>
      by_cases hp : isJaPunct a = true
      · simp only [stripAroundPunctAux, if_pos hp, List.head?_cons,
          Option.mem_some_iff] at hb
        subst hb; exact ha
      · simp only [stripAroundPunctAux, if_neg hp, if_neg ha,
          List.head?_cons, Option.mem_some_iff] at hb
        subst hb; exact ha

/-- The punctuation strip only ever deletes characters. -/
theorem stripAroundPunctAux_mem :
    ∀ (fuel : Nat) (l : List Char), ∀ c ∈ stripAroundPunctAux fuel l,
      c ∈ l := by
  intro fuel
  induction fuel with
  | zero =>
    intro l c h
    cases l with
    | nil => simp [stripAroundPunctAux] at h
    | cons a as => simpa [stripAroundPunctAux] using h
  | succ fuel ih =>
    intro l c h
    cases l with
    | nil => simp [stripAroundPunctAux] at h
    | cons a as =>
      simp only [stripAroundPunctAux] at h
      by_cases hp : isJaPunct a = true
      · rw [if_pos hp] at h
        rcases List.mem_cons.mp h with rfl | h
        · exact List.mem_cons_self _ _
        · exact List.mem_cons_of_mem _
            ((List.dropWhile_sublist pyIsSpace).subset (ih _ c h))
      · rw [if_neg hp] at h
        by_cases hws : pyIsSpace a = true
        · rw [if_pos hws] at h
          cases hd : as.dropWhile pyIsSpace with
          | nil => rw [hd] at h; exact h
          | cons d rs =>
            rw [hd] at h
            dsimp only at h
            have hdmem : d ∈ as :=
              (List.dropWhile_sublist pyIsSpace).subset (hd ▸ List.mem_cons_self d rs)
            have hrsub : ∀ x ∈ rs, x ∈ as := by
              intro x hx
              exact (List.dropWhile_sublist pyIsSpace).subset
                (hd ▸ List.mem_cons_of_mem d hx)
            by_cases hpd : isJaPunct d = true
            · rw [if_pos hpd] at h
              rcases List.mem_cons.mp h with rfl | h
              · exact List.mem_cons_of_mem _ hdmem
              · exact List.mem_cons_of_mem _
                  (hrsub c ((List.dropWhile_sublist pyIsSpace).subset (ih _ c h)))
            · rw [if_neg hpd] at h
              rcases List.mem_cons.mp h with rfl | h
              · exact List.mem_cons_self _ _
              · rcases List.mem_append.mp h with h | h
                · exact List.mem_cons_of_mem _
                    (( List.takeWhile_prefix pyIsSpace).subset h)
                · rcases List.mem_cons.mp h with rfl | h
                  · exact List.mem_cons_of_mem _ hdmem
                  · exact List.mem_cons_of_mem _ (hrsub c (ih _ c h))
        · rw [if_neg hws] at h
          rcases List.mem_cons.mp h with rfl | h
          · exact List.mem_cons_self _ _
          · exact List.mem_cons_of_mem _ (ih _ c h)

/-- On a whitespace-normal input, the punctuation strip emits a list whose
adjacencies have no whitespace pair and no punctuation-whitespace pair. -/
theorem stripAroundPunctAux_chains :
    ∀ (fuel : Nat) (l : List Char), l.length ≤ fuel → WsSingle l →
      List.Chain' (fun a b => ¬(pyIsSpace a ∧ pyIsSpace b))
        (stripAroundPunctAux fuel l) ∧
      List.Chain' (fun a b =>
        ¬(isJaPunct a ∧ pyIsSpace b) ∧ ¬(pyIsSpace a ∧ isJaPunct b))
        (stripAroundPunctAux fuel l) := by
  intro fuel
  induction fuel with
  | zero =>
    intro l hl _
    have : l = [] := List.length_eq_zero.mp (Nat.le_zero.mp hl)
    subst this
    exact ⟨by simp [stripAroundPunctAux], by simp [stripAroundPunctAux]⟩
  | succ fuel ih =>
    intro l hl hP
    cases l with
    | nil => exact ⟨by simp [stripAroundPunctAux], by simp [stripAroundPunctAux]⟩
    | cons a as =>
      simp only [List.length_cons] at hl
      by_cases hp : isJaPunct a = true
      · have ha : ¬ pyIsSpace a = true := by
          simpa using isJaPunct_not_space a hp
        have hlen : (as.dropWhile pyIsSpace).length ≤ fuel :=
          le_trans (List.dropWhile_sublist pyIsSpace).length_le (by omega)
        have hPsuf : WsSingle (as.dropWhile pyIsSpace) :=
          wsSingle_of_suffix (wsSingle_tail hP) (List.dropWhile_suffix pyIsSpace)
        obtain ⟨ihP, ihQ⟩ := ih _ hlen hPsuf
        have hhead := stripAroundPunctAux_head_not_ws fuel
          (as.dropWhile pyIsSpace) (head_dropWhile_not pyIsSpace as)
        simp only [stripAroundPunctAux, if_pos hp]
        constructor
        · rw [List.chain'_cons']
          exact ⟨fun b _ hcon => ha hcon.1, ihP⟩
        · rw [List.chain'_cons']
          refine ⟨fun b hb => ⟨fun hcon => hhead b hb hcon.2,
            fun hcon => ha hcon.1⟩, ihQ⟩
      · by_cases hws : pyIsSpace a = true
        · cases hd : as.dropWhile pyIsSpace with
          | nil =>
            have has : as = [] := by
              cases as with
              | nil => rfl
              | cons e es =>
                have hpair := (List.chain'_cons.mp hP.2).1
                by_cases hew : pyIsSpace e = true
                · exact absurd ⟨hws, hew⟩ hpair
                · rw [List.dropWhile_cons, if_neg hew] at hd
                  exact absurd hd (by simp)
            subst has
            simp only [stripAroundPunctAux, if_neg hp, if_pos hws,
              List.dropWhile_nil]
            exact ⟨by simp, by simp⟩
          | cons d rs =>
            have hdnw : ¬ pyIsSpace d = true :=
              head_dropWhile_not pyIsSpace as d (by rw [hd]; simp)
            have hcs : as = d :: rs := by
              cases as with
              | nil => simp at hd
              | cons e es =>
                have hpair := (List.chain'_cons.mp hP.2).1
                have hew : ¬ pyIsSpace e = true := fun h' => hpair ⟨hws, h'⟩
                rw [List.dropWhile_cons, if_neg hew] at hd
                exact hd
            simp only [stripAroundPunctAux, if_neg hp, if_pos hws, hd]
            by_cases hpd : isJaPunct d = true
            · rw [if_pos hpd]
              have hlen : (rs.dropWhile pyIsSpace).length ≤ fuel := by
                have h1 : (rs.dropWhile pyIsSpace).length ≤ rs.length :=
                  (List.dropWhile_sublist pyIsSpace).length_le
                have h2 : as.length = rs.length + 1 := by rw [hcs]; simp
                omega
              have hPrs : WsSingle (rs.dropWhile pyIsSpace) :=
                wsSingle_of_suffix (wsSingle_tail (hcs ▸ wsSingle_tail hP))
                  (List.dropWhile_suffix pyIsSpace)
              obtain ⟨ihP, ihQ⟩ := ih _ hlen hPrs
              have hhead := stripAroundPunctAux_head_not_ws fuel
                (rs.dropWhile pyIsSpace) (head_dropWhile_not pyIsSpace rs)
              have hdnw2 : ¬ pyIsSpace d = true := by
                simpa using isJaPunct_not_space d hpd
              constructor
              · rw [List.chain'_cons']
                exact ⟨fun b _ hcon => hdnw2 hcon.1, ihP⟩
              · rw [List.chain'_cons']
                refine ⟨fun b hb => ⟨fun hcon => hhead b hb hcon.2,
                  fun hcon => hdnw2 hcon.1⟩, ihQ⟩
            · rw [if_neg hpd]
              have htake : as.takeWhile pyIsSpace = [] := by
                rw [hcs, List.takeWhile_cons, if_neg hdnw]
              rw [htake]
              have hlen : rs.length ≤ fuel := by
                have h2 : as.length = rs.length + 1 := by rw [hcs]; simp
                omega
              have hPrs : WsSingle rs := wsSingle_tail (hcs ▸ wsSingle_tail hP)
              obtain ⟨ihP, ihQ⟩ := ih rs hlen hPrs
              simp only [List.nil_append]
              constructor
              · rw [List.chain'_cons', List.chain'_cons']
                refine ⟨?_, fun b _ hcon => hdnw hcon.1, ihP⟩
                intro b hb
                simp only [List.head?_cons, Option.mem_some_iff] at hb
                subst hb
                exact fun hcon => hdnw hcon.2
              · rw [List.chain'_cons', List.chain'_cons']
                refine ⟨?_, fun b _ => ⟨fun hcon => hpd hcon.1,
                  fun hcon => hdnw hcon.1⟩, ihQ⟩
                intro b hb
                simp only [List.head?_cons, Option.mem_some_iff] at hb
                subst hb
                exact ⟨fun hcon => hp hcon.1, fun hcon => hpd hcon.2⟩
        · obtain ⟨ihP, ihQ⟩ := ih as (by omega) (wsSingle_tail hP)
          simp only [stripAroundPunctAux, if_neg hp, if_neg hws]
          constructor
          · rw [List.chain'_cons']
            exact ⟨fun b _ hcon => hws hcon.1, ihP⟩
          · rw [List.chain'_cons']
            exact ⟨fun b _ => ⟨fun hcon => hp hcon.1,
              fun hcon => hws hcon.1⟩, ihQ⟩

/-- The punctuation strip fixes strings that are whitespace-normal and
free of whitespace adjacent to punctuation. -/
theorem stripAroundPunctAux_eq_self :
    ∀ (fuel : Nat) (l : List Char), l.length ≤ fuel → WsSingle l →
      NoWsAroundPunct l → stripAroundPunctAux fuel l = l := by
  intro fuel
  induction fuel with
  | zero =>
    intro l hl _ _
    have : l = [] := List.length_eq_zero.mp (Nat.le_zero.mp hl)
    subst this; rfl
  | succ fuel ih =>
    intro l hl hP hQ
    cases l with
    | nil => rfl
    | cons a as =>
      simp only [List.length_cons] at hl
      by_cases hp : isJaPunct a = true
      · have hdrop : as.dropWhile pyIsSpace = as := by
          cases as with
          | nil => rfl
          | cons e es =>
            have hpair := (List.chain'_cons.mp hQ).1
            have hew : ¬ pyIsSpace e = true := fun h' => hpair.1 ⟨hp, h'⟩
            rw [List.dropWhile_cons, if_neg hew]
        simp only [stripAroundPunctAux, if_pos hp, hdrop]
        rw [ih as (by omega) (wsSingle_tail hP) (List.Chain'.tail hQ)]
      · by_cases hws : pyIsSpace a = true
        · cases hd : as.dropWhile pyIsSpace with
          | nil =>
            simp only [stripAroundPunctAux, if_neg hp, if_pos hws, hd]
          | cons d rs =>
            have hdnw : ¬ pyIsSpace d = true :=
              head_dropWhile_not pyIsSpace as d (by rw [hd]; simp)
            have hcs : as = d :: rs := by
              cases as with
              | nil => simp at hd
              | cons e es =>
                have hpair := (List.chain'_cons.mp hP.2).1
                have hew : ¬ pyIsSpace e = true := fun h' => hpair ⟨hws, h'⟩
                rw [List.dropWhile_cons, if_neg hew] at hd
                exact hd
            have hQ2 : NoWsAroundPunct (a :: d :: rs) := hcs ▸ hQ
            have hpd : ¬ isJaPunct d = true :=
              fun h' => (List.chain'_cons.mp hQ2).1.2 ⟨hws, h'⟩
            have htake : as.takeWhile pyIsSpace = [] := by
              rw [hcs, List.takeWhile_cons, if_neg hdnw]
            simp only [stripAroundPunctAux, if_neg hp, if_pos hws, hd]
            rw [if_neg hpd, htake]
            have hlen : rs.length ≤ fuel := by
              have h2 : as.length = rs.length + 1 := by rw [hcs]; simp
              omega
            rw [ih rs hlen (wsSingle_tail (hcs ▸ wsSingle_tail hP))
              (List.Chain'.tail (List.Chain'.tail hQ2))]
            rw [hcs]
            simp
        · simp only [stripAroundPunctAux, if_neg hp, if_neg hws]
          rw [ih as (by omega) (wsSingle_tail hP) (List.Chain'.tail hQ)]

/-- Stripping only ever deletes characters. -/
theorem pyStripL_mem (l : List Char) : ∀ c ∈ pyStripL l, c ∈ l := by
  intro c h
  unfold pyStripL at h
  rw [List.mem_reverse] at h
  have h2 := (List.dropWhile_sublist pyIsSpace).subset h
  rw [List.mem_reverse] at h2
  exact (List.dropWhile_sublist pyIsSpace).subset h2

/-- The stripped list is a prefix of the left-stripped list. -/
theorem pyStripL_front (l : List Char) :
    pyStripL l <+: l.dropWhile pyIsSpace := by
  unfold pyStripL
  apply List.reverse_suffix.mp
  rw [List.reverse_reverse]
  exact List.dropWhile_suffix pyIsSpace

/-- A nonempty prefix shares the head. -/
theorem head_eq_of_prefix {l₁ l₂ : List Char} (h : l₁ <+: l₂)
    (hne : l₁ ≠ []) : l₂.head? = l₁.head? := by
  obtain ⟨t, rfl⟩ := h
  cases l₁ with
  | nil => exact absurd rfl hne
  | cons a as => simp

/-- `str.strip()` is idempotent. -/
theorem pyStripL_idem (l : List Char) : pyStripL (pyStripL l) = pyStripL l := by
  have hpre : pyStripL l <+: l.dropWhile pyIsSpace := pyStripL_front l
  have hR1 : (pyStripL l).dropWhile pyIsSpace = pyStripL l := by
    apply dropWhile_eq_self_of_head
    intro b hb
    cases hR : pyStripL l with
    | nil => rw [hR] at hb; simp at hb
    | cons r rr =>
      rw [hR] at hb hpre
      have hhead := head_eq_of_prefix hpre (by simp)
      simp only [List.head?_cons, Option.mem_some_iff] at hb
      subst hb
      exact head_dropWhile_not pyIsSpace l r (by rw [hhead]; simp)
  have hR2 : (pyStripL l).reverse.dropWhile pyIsSpace = (pyStripL l).reverse := by
    have hrev : (pyStripL l).reverse =
        (l.dropWhile pyIsSpace).reverse.dropWhile pyIsSpace := by
      unfold pyStripL
      rw [List.reverse_reverse]
    rw [hrev]
    exact dropWhile_eq_self_of_head pyIsSpace _
      (head_dropWhile_not pyIsSpace _)
  have hstep : pyStripL (pyStripL l) =
      (((pyStripL l).dropWhile pyIsSpace).reverse.dropWhile pyIsSpace).reverse :=
    rfl
  rw [hstep, hR1, hR2, List.reverse_reverse]

/-- Stripping preserves every adjacency invariant. -/
theorem pyStripL_chain {r : Char → Char → Prop} (l : List Char)
    (h : List.Chain' r l) : List.Chain' r (pyStripL l) :=
  List.Chain'.prefix (h.suffix (List.dropWhile_suffix pyIsSpace))
    (pyStripL_front l)

/-- The translation pass never emits a translatable character. -/
theorem noAscii_map (l : List Char) : NoAsciiPunct (l.map translateJa) := by
  intro c hc
  rcases List.mem_map.mp hc with ⟨a, _, rfl⟩
  exact translateJa_fixes a

/-- On translation-normal input the translation pass is the identity. -/
theorem map_translate_eq_self (l : List Char) (h : NoAsciiPunct l) :
    l.map translateJa = l := by
  induction l with
  | nil => rfl
  | cons a as ih =>
    rw [List.map_cons, h a (List.mem_cons_self a as),
      ih (fun c hc => h c (List.mem_cons_of_mem a hc))]

/-- `collapseWs` preserves translation normal form. -/
theorem noAscii_collapse (l : List Char) (h : NoAsciiPunct l) :
    NoAsciiPunct (collapseWs l) := by
  intro c hc
  rcases collapseWsAux_mem l.length l c hc with rfl | hm
  · exact translateJa_space
  · exact h c hm

/-- Top-level wrapper: `collapseWs` output is whitespace-normal. -/
theorem collapseWs_wsSingle (l : List Char) : WsSingle (collapseWs l) :=
  collapseWsAux_wsSingle l.length l le_rfl

/-- Top-level wrapper: `collapseWs` fixes whitespace-normal lists. -/
theorem collapseWs_eq_self (l : List Char) (h : WsSingle l) :
    collapseWs l = l :=
  collapseWsAux_eq_self l.length l le_rfl h

/-- Top-level wrapper: `stripAroundPunct` fixes normal-form lists. -/
theorem stripAroundPunct_eq_self (l : List Char) (hP : WsSingle l)
    (hQ : NoWsAroundPunct l) : stripAroundPunct l = l :=
  stripAroundPunctAux_eq_self l.length l le_rfl hP hQ

/-- The normal form of the full pipeline body before stripping. -/
theorem stripAroundPunct_normal (l : List Char) (hP : WsSingle l) :
    WsSingle (stripAroundPunct l) ∧ NoWsAroundPunct (stripAroundPunct l) := by
  obtain ⟨hc1, hc2⟩ := stripAroundPunctAux_chains l.length l le_rfl hP
  exact ⟨⟨fun c hc hw => hP.1 c (stripAroundPunctAux_mem l.length l c hc) hw,
    hc1⟩, hc2⟩

/-- The core of C9 at the character-list level: one more full
normalization pass fixes the output of a first pass. -/
theorem normalizeL_idem (l : List Char) :
    pyStripL (stripAroundPunct (collapseWs
      ((pyStripL (stripAroundPunct (collapseWs (l.map translateJa)))).map
        translateJa))) =
    pyStripL (stripAroundPunct (collapseWs (l.map translateJa))) := by
  have hNAy : NoAsciiPunct (l.map translateJa) := noAscii_map l
  have hNAC : NoAsciiPunct (collapseWs (l.map translateJa)) :=
    noAscii_collapse _ hNAy
  have hNAX : NoAsciiPunct (stripAroundPunct (collapseWs (l.map translateJa))) :=
    fun c hc => hNAC c (stripAroundPunctAux_mem _ _ c hc)
  have hNAr : NoAsciiPunct
      (pyStripL (stripAroundPunct (collapseWs (l.map translateJa)))) :=
    fun c hc => hNAX c (pyStripL_mem _ c hc)
  have hPC : WsSingle (collapseWs (l.map translateJa)) := collapseWs_wsSingle _
  obtain ⟨hPX, hQX⟩ := stripAroundPunct_normal _ hPC
  have hPr : WsSingle
      (pyStripL (stripAroundPunct (collapseWs (l.map translateJa)))) :=
    ⟨fun c hc hw => hPX.1 c (pyStripL_mem _ c hc) hw, pyStripL_chain _ hPX.2⟩
  have hQr : NoWsAroundPunct
      (pyStripL (stripAroundPunct (collapseWs (l.map translateJa)))) :=
    pyStripL_chain _ hQX
  rw [map_translate_eq_self _ hNAr, collapseWs_eq_self _ hPr,
    stripAroundPunct_eq_self _ hPr hQr, pyStripL_idem]

/-- C2 (code bug): in the stage 6 cache protocol as implemented, a first
run on gated segments `[(0,1000,"ああ")]` with the gate sidecar present
commits blocks and metadata; changing the upstream gated artifact content
to `[(0,1000,"いい")]` while the sidecar is unchanged does NOT invalidate
the cache — the second run is a cache hit (`false` recompute flag, state
unchanged) and keeps serving the stale blocks built from "ああ", because
`_input_fingerprint` hashes only the sidecar when it exists.  This
contradicts the claim and the repository's own
`test_stage6_reruns_when_gated_json_changes`. -/
theorem stage6_cache_not_invalidated_by_upstream_change :
    stage6Run {} ⟨some [⟨0, 1000, "ああ"⟩], some "gate-meta", none, none⟩ =
      .ok (⟨some [⟨0, 1000, "ああ"⟩], some "gate-meta",
        some [⟨1, 0, 1000, "ああ"⟩],
        some ⟨"stage6", 1, .ofMeta "gate-meta", stage6ConfigPayload {},
          [⟨1, 0, 1000, "ああ"⟩]⟩⟩, true) ∧
    stage6Run {} ⟨some [⟨0, 1000, "いい"⟩], some "gate-meta",
        some [⟨1, 0, 1000, "ああ"⟩],
        some ⟨"stage6", 1, .ofMeta "gate-meta", stage6ConfigPayload {},
          [⟨1, 0, 1000, "ああ"⟩]⟩⟩ =
      .ok (⟨some [⟨0, 1000, "いい"⟩], some "gate-meta",
        some [⟨1, 0, 1000, "ああ"⟩],
        some ⟨"stage6", 1, .ofMeta "gate-meta", stage6ConfigPayload {},
          [⟨1, 0, 1000, "ああ"⟩]⟩⟩, false) ∧
    ([⟨0, 1000, "ああ"⟩] : List Segment) ≠ [⟨0, 1000, "いい"⟩] := by
  refine ⟨?_, ?_, by decide⟩ <;> decide

/-- C3 counterexample: for the well-formed-looking entry
`⟨1, " 0", "1", ["あ"]⟩` (integer index, timing strings, one non-blank
text line), `parse_srt (render_srt [e])` does not reconstruct `e`: the
parser strips the leading space of `start_ts`. -/
theorem parse_render_not_inverse :
    parse_srt (render_srt [⟨1, " 0", "1", ["あ"]⟩]) ≠
      Except.ok [⟨1, " 0", "1", ["あ"]⟩] := by
  decide

/-- Digit characters: shape, classification and value. -/
theorem digitChar_facts (k : Nat) (hk : k < 10) :
    (Char.ofNat (48 + k)).isDigit = true ∧
    digitVal (Char.ofNat (48 + k)) = k ∧
    pyIsSpace (Char.ofNat (48 + k)) = false ∧
    Char.ofNat (48 + k) ≠ '-' ∧ Char.ofNat (48 + k) ≠ '+' := by
  interval_cases k <;> exact ⟨by decide, by decide, by decide, by decide,
    by decide⟩

/-- Every character `natToDigits` emits is an ASCII digit. -/
theorem natToDigits_shape :
    ∀ (fuel n : Nat), ∀ c ∈ natToDigits fuel n, ∃ k, k < 10 ∧
      c = Char.ofNat (48 + k) := by
  intro fuel
  induction fuel with
  | zero =>
    intro n c hc
    simp only [natToDigits, List.mem_singleton] at hc
    exact ⟨n % 10, Nat.mod_lt _ (by norm_num), hc⟩
  | succ fuel ih =>
    intro n c hc
    by_cases hn : n < 10
    · simp only [natToDigits, if_pos hn, List.mem_singleton] at hc
      exact ⟨n, hn, hc⟩
    · simp only [natToDigits, if_neg hn, List.mem_append,
        List.mem_singleton] at hc
      rcases hc with hc | hc
      · exact ih _ c hc
      · exact ⟨n % 10, Nat.mod_lt _ (by norm_num), hc⟩

/-- `natToDigits` is nonempty and parses back to its input when the fuel
covers the value. -/
theorem natToDigits_val :
    ∀ (fuel n : Nat), n ≤ fuel →
      natToDigits fuel n ≠ [] ∧
      (natToDigits fuel n).foldl (fun acc c => acc * 10 + digitVal c) 0 = n := by
  intro fuel
  induction fuel with
  | zero =>
    intro n hn
    have : n = 0 := Nat.le_zero.mp hn
    subst this
    exact ⟨by simp [natToDigits], by simp [natToDigits]; decide⟩
  | succ fuel ih =>
    intro n hn
    by_cases hlt : n < 10
    · refine ⟨by simp [natToDigits, hlt], ?_⟩
      simp only [natToDigits, if_pos hlt, List.foldl_cons, List.foldl_nil]
      have := (digitChar_facts n hlt).2.1
      omega
    · have hdiv : n / 10 ≤ fuel := by
        have h1 : n / 10 < n := Nat.div_lt_self (by omega) (by norm_num)
        omega
      obtain ⟨hne, hval⟩ := ih (n / 10) hdiv
      refine ⟨by simp [natToDigits, hlt], ?_⟩
      simp only [natToDigits, if_neg hlt, List.foldl_append, hval,
        List.foldl_cons, List.foldl_nil]
      have := (digitChar_facts (n % 10) (Nat.mod_lt _ (by norm_num))).2.1
      omega

/-- The strip inside `int()` is a no-op on an all-digit numeral, possibly
with a sign. -/
theorem pyStripL_digits (l : List Char)
    (h : ∀ c ∈ l, pyIsSpace c = false) : pyStripL l = l := by
  unfold pyStripL
  rw [dropWhile_eq_self_of_head pyIsSpace l
    (fun b hb => by simp [h b (List.mem_of_mem_head? hb)])]
  rw [dropWhile_eq_self_of_head pyIsSpace l.reverse
    (fun b hb => by
      rw [List.head?_reverse] at hb
      simp [h b (List.mem_of_mem_getLast? hb)])]
  exact List.reverse_reverse l

/-- `parseNatDigits` recovers the value of a digit string. -/
theorem parseNatDigits_toDigits (fuel n : Nat) (hn : n ≤ fuel) :
    parseNatDigits (natToDigits fuel n) = some n := by
  obtain ⟨hne, hval⟩ := natToDigits_val fuel n hn
  unfold parseNatDigits
  rw [if_neg (by simpa using hne)]
  rw [if_pos]
  · rw [hval]
  · rw [List.all_eq_true]
    intro c hc
    obtain ⟨k, hk, rfl⟩ := natToDigits_shape fuel n c hc
    exact (digitChar_facts k hk).1

/-- Python `int(str(i)) = i` for every integer. -/
theorem pyParseInt_repr (i : Int) : pyParseInt (pyIntRepr i) = some i := by
  cases i with
  | ofNat n =>
    have hsh := natToDigits_shape n n
    have hnws : ∀ c ∈ natToDigits n n, pyIsSpace c = false := by
      intro c hc
      obtain ⟨k, hk, rfl⟩ := hsh c hc
      exact (digitChar_facts k hk).2.2.1
    unfold pyParseInt pyIntRepr
    rw [show (⟨natToDigits n n⟩ : String).data = natToDigits n n from rfl]
    rw [pyStripL_digits _ hnws]
    obtain ⟨hne, _⟩ := natToDigits_val n n le_rfl
    split
    · rename_i rest heq
      obtain ⟨k, hk, hck⟩ := hsh '-' (by rw [heq]; simp)
      exact absurd hck.symm (digitChar_facts k hk).2.2.2.1
    · rename_i rest heq
      obtain ⟨k, hk, hck⟩ := hsh '+' (by rw [heq]; simp)
      exact absurd hck.symm (digitChar_facts k hk).2.2.2.2
    · rw [parseNatDigits_toDigits n n le_rfl]
      rfl
  | negSucc m =>
    have hsh := natToDigits_shape (m + 1) (m + 1)
    have hnws : ∀ c ∈ '-' :: natToDigits (m + 1) (m + 1),
        pyIsSpace c = false := by
      intro c hc
      rcases List.mem_cons.mp hc with rfl | hc
      · decide
      · obtain ⟨k, hk, rfl⟩ := hsh c hc
        exact (digitChar_facts k hk).2.2.1
    unfold pyParseInt pyIntRepr
    rw [show (⟨'-' :: natToDigits (m + 1) (m + 1)⟩ : String).data =
      '-' :: natToDigits (m + 1) (m + 1) from rfl]
    rw [pyStripL_digits _ hnws]
    split
    · rename_i rest heq
      rw [List.cons.injEq] at heq
      obtain ⟨-, rfl⟩ := heq
      rw [parseNatDigits_toDigits (m + 1) (m + 1) le_rfl]
      simp [Int.negSucc_eq]
    · rename_i rest heq
      rw [List.cons.injEq] at heq
      exact absurd heq.1 (by decide)
    · rename_i h1 h2
      exact absurd rfl (h1 _)

/-- The rendered index line is never blank. -/
theorem pyIntRepr_not_blank (i : Int) : isBlank (pyIntRepr i) = false := by
  unfold isBlank
  cases i with
  | ofNat n =>
    have hnws : ∀ c ∈ natToDigits n n, pyIsSpace c = false := by
      intro c hc
      obtain ⟨k, hk, rfl⟩ := natToDigits_shape n n c hc
      exact (digitChar_facts k hk).2.2.1
    rw [show (pyIntRepr (Int.ofNat n)).data = natToDigits n n from rfl]
    rw [pyStripL_digits _ hnws]
    simpa using (natToDigits_val n n le_rfl).1
  | negSucc m =>
    have hnws : ∀ c ∈ '-' :: natToDigits (m + 1) (m + 1),
        pyIsSpace c = false := by
      intro c hc
      rcases List.mem_cons.mp hc with rfl | hc
      · decide
      · obtain ⟨k, hk, rfl⟩ := natToDigits_shape (m + 1) (m + 1) c hc
        exact (digitChar_facts k hk).2.2.1
    rw [show (pyIntRepr (Int.negSucc m)).data =
      '-' :: natToDigits (m + 1) (m + 1) from rfl]
    rw [pyStripL_digits _ hnws]
    simp

/-- Stripping is the identity when both ends (if any) are
non-whitespace. -/
theorem pyStripL_eq_self (l : List Char)
    (hh : ∀ c ∈ l.head?, pyIsSpace c = false)
    (hl : ∀ c ∈ l.getLast?, pyIsSpace c = false) : pyStripL l = l := by
  unfold pyStripL
  rw [dropWhile_eq_self_of_head pyIsSpace l
    (fun b hb => by simp [hh b hb])]
  rw [dropWhile_eq_self_of_head pyIsSpace l.reverse
    (fun b hb => by
      rw [List.head?_reverse] at hb
      simp [hl b hb])]
  exact List.reverse_reverse l

/-- Stripping removes a single appended whitespace character when the
kept part has non-whitespace ends. -/
theorem pyStripL_snoc_ws (l : List Char) (c : Char) (hc : pyIsSpace c = true)
    (hh : ∀ b ∈ l.head?, pyIsSpace b = false)
    (hl : ∀ b ∈ l.getLast?, pyIsSpace b = false) :
    pyStripL (l ++ [c]) = l := by
  cases l with
  | nil =>
    unfold pyStripL
    simp [List.dropWhile_cons, hc]
  | cons a l' =>
    unfold pyStripL
    rw [dropWhile_eq_self_of_head pyIsSpace ((a :: l') ++ [c])
      (fun b hb => by
        simp only [List.cons_append, List.head?_cons,
          Option.mem_some_iff] at hb
        subst hb
        simp [hh a rfl])]
    rw [show ((a :: l') ++ [c]).reverse = c :: (a :: l').reverse from by simp]
    rw [List.dropWhile_cons, if_pos hc]
    rw [dropWhile_eq_self_of_head pyIsSpace (a :: l').reverse
      (fun b hb => by
        rw [List.head?_reverse] at hb
        simp [hl b hb])]
    exact List.reverse_reverse _

/-- Stripping removes a single prepended whitespace character when the
kept part has non-whitespace ends. -/
theorem pyStripL_cons_ws (c : Char) (l : List Char) (hc : pyIsSpace c = true)
    (hh : ∀ b ∈ l.head?, pyIsSpace b = false)
    (hl : ∀ b ∈ l.getLast?, pyIsSpace b = false) :
    pyStripL (c :: l) = l := by
  unfold pyStripL
  rw [List.dropWhile_cons, if_pos hc]
  rw [dropWhile_eq_self_of_head pyIsSpace l
    (fun b hb => by simp [hh b hb])]
  rw [dropWhile_eq_self_of_head pyIsSpace l.reverse
    (fun b hb => by
      rw [List.head?_reverse] at hb
      simp [hl b hb])]
  exact List.reverse_reverse l

/-- Right-stripping absorbs one trailing whitespace character. -/
theorem pyRstripL_snoc_ws (l : List Char) (c : Char)
    (hc : pyIsSpace c = true) : pyRstripL (l ++ [c]) = pyRstripL l := by
  unfold pyRstripL
  rw [show (l ++ [c]).reverse = c :: l.reverse from by simp]
  rw [List.dropWhile_cons, if_pos hc]

/-- Right-stripping is the identity when the last character (if any) is
non-whitespace. -/
theorem pyRstripL_eq_self (l : List Char)
    (hl : ∀ c ∈ l.getLast?, pyIsSpace c = false) : pyRstripL l = l := by
  unfold pyRstripL
  rw [dropWhile_eq_self_of_head pyIsSpace l.reverse
    (fun b hb => by
      rw [List.head?_reverse] at hb
      simp [hl b hb])]
  exact List.reverse_reverse l

/-- `int()` ignores an outer `strip` of its argument. -/
theorem pyParseInt_strip (s : String) :
    pyParseInt (pyStrip s) = pyParseInt s := by
  unfold pyParseInt pyStrip
  rw [show (⟨pyStripL s.data⟩ : String).data = pyStripL s.data from rfl]
  rw [pyStripL_idem]

/-- Boolean `Option.all` yields the pointwise predicate. -/
theorem option_all_false {o : Option Char} {p : Char → Bool}
    (h : o.all (fun c => !p c) = true) : ∀ c ∈ o, p c = false := by
  intro c hc
  cases o with
  | none => simp at hc
  | some a =>
    rw [Option.mem_some_iff] at hc
    subst hc
    simpa using h

/-- ASCII digits are not line-break characters. -/
theorem digitChar_not_lb (k : Nat) (hk : k < 10) :
    isLineBreak (Char.ofNat (48 + k)) = false := by
  interval_cases k <;> decide

/-- Rendered integers contain no line-break characters. -/
theorem pyIntRepr_no_lb (i : Int) :
    ∀ c ∈ (pyIntRepr i).data, isLineBreak c = false := by
  intro c hc
  cases i with
  | ofNat n =>
    rw [show (pyIntRepr (Int.ofNat n)).data = natToDigits n n from rfl] at hc
    obtain ⟨k, hk, rfl⟩ := natToDigits_shape n n c hc
    exact digitChar_not_lb k hk
  | negSucc m =>
    rw [show (pyIntRepr (Int.negSucc m)).data =
      '-' :: natToDigits (m + 1) (m + 1) from rfl] at hc
    rcases List.mem_cons.mp hc with rfl | hc
    · decide
    · obtain ⟨k, hk, rfl⟩ := natToDigits_shape (m + 1) (m + 1) c hc
      exact digitChar_not_lb k hk

/-- Non-blank strings have nonempty character data. -/
theorem data_ne_nil_of_not_blank (s : String) (h : isBlank s = false) :
    s.data ≠ [] := by
  intro hd
  unfold isBlank at h
  rw [hd] at h
  simp [pyStripL] at h

/-- A failed separator search fails at the head and on the tail. -/
theorem findSplitOnce_none_cons {sep : List Char} {c : Char} {cs : List Char}
    (h : findSplitOnce sep (c :: cs) = none) :
    sep.isPrefixOf (c :: cs) = false ∧ findSplitOnce sep cs = none := by
  rw [findSplitOnce] at h
  by_cases hp : sep.isPrefixOf (c :: cs) = true
  · rw [if_pos hp] at h
    simp at h
  · refine ⟨by rwa [Bool.not_eq_true] at hp, ?_⟩
    rw [if_neg hp] at h
    cases hrec : findSplitOnce sep cs with
    | none => rfl
    | some p =>
      obtain ⟨x, y⟩ := p
      rw [hrec] at h
      simp at h

/-- Splitting on `-->` finds the rendered separator: when the left part
does not contain `-->`, the first match sits right after the left part
and its trailing space, whatever follows the arrow. -/
theorem findSplitOnce_arrow (w : List Char) :
    ∀ u, findSplitOnce sepArrow u = none →
      findSplitOnce sepArrow (u ++ ' ' :: '-' :: '-' :: '>' :: w) =
        some (u ++ [' '], w) := by
  intro u
  induction u with
  | nil =>
    intro _
    rw [List.nil_append, findSplitOnce,
      if_neg (by simp +decide [sepArrow, List.isPrefixOf]), findSplitOnce,
      if_pos (by simp +decide [sepArrow, List.isPrefixOf])]
    rfl
  | cons c u' ih =>
    intro h
    obtain ⟨hpre, hnone⟩ := findSplitOnce_none_cons h
    rw [List.cons_append, findSplitOnce]
    rw [if_neg ?hcond]
    · rw [ih hnone]
      simp
    case hcond =>
      rcases u' with _ | ⟨d, _ | ⟨e, u''⟩⟩
      · simp +decide [List.isPrefixOf, sepArrow]
      · simp +decide [List.isPrefixOf, sepArrow]
      · simp only [sepArrow, List.isPrefixOf, List.cons_append,
          Bool.and_eq_true, beq_iff_eq] at hpre ⊢
        simpa using hpre

/-- Splitting on `-->` at a leading match keeps everything after the
arrow. -/
theorem findSplitOnce_arrow_head (w : List Char) :
    findSplitOnce sepArrow ('-' :: '-' :: '>' :: w) = some ([], w) := by
  rw [findSplitOnce, if_pos (by simp +decide [sepArrow, List.isPrefixOf])]
  rfl

/-- Stripping the rendered timing line and splitting at the first `-->`
yields parts that strip back to the two timing strings, for every pair
of timing strings without leading or trailing whitespace (empty ones
included) whose left part has no embedded `-->`. -/
theorem timing_strip_split (s1 s2 : List Char)
    (h1h : s1.head?.all (fun c => !pyIsSpace c) = true)
    (h1l : s1.getLast?.all (fun c => !pyIsSpace c) = true)
    (h2h : s2.head?.all (fun c => !pyIsSpace c) = true)
    (h2l : s2.getLast?.all (fun c => !pyIsSpace c) = true)
    (harrow : findSplitOnce sepArrow s1 = none) :
    ∃ a b,
      findSplitOnce sepArrow
        (pyStripL ((s1 ++ [' ', '-', '-', '>', ' ']) ++ s2)) = some (a, b) ∧
      pyStripL a = s1 ∧ pyStripL b = s2 := by
  cases s1 with
  | nil =>
    cases s2 with
    | nil => exact ⟨[], [], by decide, by decide, by decide⟩
    | cons c2 s2' =>
      refine ⟨[], ' ' :: c2 :: s2', ?_, rfl, ?_⟩
      · have hstrip :
            pyStripL (([] ++ [' ', '-', '-', '>', ' ']) ++ c2 :: s2') =
              '-' :: '-' :: '>' :: ' ' :: c2 :: s2' := by
          rw [show (([] ++ [' ', '-', '-', '>', ' ']) ++ c2 :: s2' :
            List Char) = ' ' :: '-' :: '-' :: '>' :: ' ' :: c2 :: s2'
            from rfl]
          rw [show pyStripL (' ' :: '-' :: '-' :: '>' :: ' ' :: c2 :: s2') =
            pyRstripL ((' ' :: '-' :: '-' :: '>' :: ' ' :: c2 ::
              s2').dropWhile pyIsSpace) from rfl]
          rw [List.dropWhile_cons, if_pos (by decide), List.dropWhile_cons,
            if_neg (by decide)]
          apply pyRstripL_eq_self
          intro c hc
          rw [show ('-' :: '-' :: '>' :: ' ' :: c2 :: s2' : List Char) =
            ['-', '-', '>', ' '] ++ c2 :: s2' from rfl] at hc
          rw [List.getLast?_append_of_ne_nil _ (by simp)] at hc
          exact option_all_false h2l c hc
        rw [hstrip]
        exact findSplitOnce_arrow_head (' ' :: c2 :: s2')
      · exact pyStripL_cons_ws ' ' _ (by decide) (option_all_false h2h)
          (option_all_false h2l)
  | cons a1 s1' =>
    have hh1 : ∀ b ∈ (a1 :: s1').head?, pyIsSpace b = false :=
      option_all_false h1h
    have hl1 : ∀ b ∈ (a1 :: s1').getLast?, pyIsSpace b = false :=
      option_all_false h1l
    cases s2 with
    | nil =>
      refine ⟨(a1 :: s1') ++ [' '], [], ?_, ?_, rfl⟩
      · have hstrip :
            pyStripL (((a1 :: s1') ++ [' ', '-', '-', '>', ' ']) ++ []) =
              (a1 :: s1') ++ ' ' :: '-' :: '-' :: '>' :: [] := by
          rw [List.append_nil]
          rw [show pyStripL ((a1 :: s1') ++ [' ', '-', '-', '>', ' ']) =
            pyRstripL (((a1 :: s1') ++ [' ', '-', '-', '>', ' ']).dropWhile
              pyIsSpace) from rfl]
          rw [dropWhile_eq_self_of_head pyIsSpace _ (fun b hb => by
            rw [show ((a1 :: s1') ++ [' ', '-', '-', '>', ' ']).head? =
              some a1 from rfl, Option.mem_some_iff] at hb
            subst hb
            simp [hh1 a1 rfl])]
          rw [show ((a1 :: s1') ++ [' ', '-', '-', '>', ' '] : List Char) =
            ((a1 :: s1') ++ [' ', '-', '-', '>']) ++ [' '] from by simp]
          rw [pyRstripL_snoc_ws _ ' ' (by decide)]
          rw [pyRstripL_eq_self _ (fun b hb => by
            rw [List.getLast?_append_of_ne_nil _
              (show ([' ', '-', '-', '>'] : List Char) ≠ [] by simp)] at hb
            rw [show ([' ', '-', '-', '>'] : List Char).getLast? = some '>'
              from by decide, Option.mem_some_iff] at hb
            subst hb
            decide)]
        rw [hstrip]
        exact findSplitOnce_arrow [] (a1 :: s1') harrow
      · exact pyStripL_snoc_ws _ ' ' (by decide) hh1 hl1
    | cons c2 s2' =>
      refine ⟨(a1 :: s1') ++ [' '], ' ' :: c2 :: s2', ?_, ?_, ?_⟩
      · have hstrip :
            pyStripL (((a1 :: s1') ++ [' ', '-', '-', '>', ' ']) ++
              c2 :: s2') =
              (a1 :: s1') ++ ' ' :: '-' :: '-' :: '>' :: ' ' :: c2 :: s2' := by
          rw [show pyStripL (((a1 :: s1') ++ [' ', '-', '-', '>', ' ']) ++
            c2 :: s2') =
            pyRstripL ((((a1 :: s1') ++ [' ', '-', '-', '>', ' ']) ++
              c2 :: s2').dropWhile pyIsSpace) from rfl]
          rw [dropWhile_eq_self_of_head pyIsSpace _ (fun b hb => by
            rw [show (((a1 :: s1') ++ [' ', '-', '-', '>', ' ']) ++
              c2 :: s2').head? = some a1 from rfl,
              Option.mem_some_iff] at hb
            subst hb
            simp [hh1 a1 rfl])]
          rw [pyRstripL_eq_self _ (fun b hb => by
            rw [List.getLast?_append_of_ne_nil _
              (show (c2 :: s2' : List Char) ≠ [] by simp)] at hb
            exact option_all_false h2l b hb)]
          simp
        rw [hstrip]
        exact findSplitOnce_arrow (' ' :: c2 :: s2') (a1 :: s1') harrow
      · exact pyStripL_snoc_ws _ ' ' (by decide) hh1 hl1
      · exact pyStripL_cons_ws ' ' _ (by decide) (option_all_false h2h)
          (option_all_false h2l)

/-- `takeWhile`/`dropWhile` split an append at the first failing
element. -/
theorem takeWhile_append_all (p : String → Bool) :
    ∀ (xs rest : List String), (∀ x ∈ xs, p x = true) →
      (∀ y ∈ rest.head?, p y = false) →
      (xs ++ rest).takeWhile p = xs ∧ (xs ++ rest).dropWhile p = rest := by
  intro xs
  induction xs with
  | nil =>
    intro rest _ hrest
    cases rest with
    | nil => exact ⟨rfl, rfl⟩
    | cons y r =>
      have hy : p y = false := hrest y rfl
      exact ⟨by simp [List.takeWhile_cons, hy],
        by simp [List.dropWhile_cons, hy]⟩
  | cons x xs' ih =>
    intro rest hxs hrest
    have hx : p x = true := hxs x (by simp)
    obtain ⟨ht, hd⟩ := ih rest (fun z hz => hxs z (by simp [hz])) hrest
    constructor
    · rw [List.cons_append, List.takeWhile_cons, if_pos hx, ht]
    · rw [List.cons_append, List.dropWhile_cons, if_pos hx, hd]

/-- The parse loop accepts the empty line list at any fuel. -/
theorem parseEntriesAux_nil (fuel : Nat) :
    parseEntriesAux fuel [] = Except.ok [] := by
  cases fuel <;> rfl

/-- The parse loop skips one leading blank line. -/
theorem parseEntriesAux_skip_blank (fuel : Nat) (b : String)
    (hb : isBlank b = true) (l : List String) :
    parseEntriesAux (fuel + 1) (b :: l) = parseEntriesAux (fuel + 1) l := by
  cases l with
  | nil => simp [parseEntriesAux, List.dropWhile_cons, hb]
  | cons x xs => simp [parseEntriesAux, List.dropWhile_cons, hb]

/-- The parse loop consumes exactly one rendered entry body: the index
line parses back, the timing line splits at the rendered ` --> `, and
the text lines end at the following blank line (or at the end of
input). -/
theorem parse_entry_step (e : SrtEntry) (rest : List String) (fuel : Nat)
    (hWF : entryRoundTripWF e)
    (hrest : rest = [] ∨ ∃ more, rest = "" :: more) :
    parseEntriesAux (fuel + 1) (entryLines e ++ rest) =
      (parseEntriesAux fuel rest).map (fun es => e :: es) := by
  obtain ⟨hlines_ne, hblank, hlb, hs1h, hs1l, hs2h, hs2l,
    hs1lb, hs2lb, harrow⟩ := hWF
  have hIdx : isBlank (pyIntRepr e.index) = false := pyIntRepr_not_blank e.index
  have hParse : pyParseInt (pyStrip (pyIntRepr e.index)) = some e.index := by
    rw [pyParseInt_strip]
    exact pyParseInt_repr e.index
  obtain ⟨a, b, hFind0, hStart0, hEnd0⟩ := timing_strip_split e.start_ts.data
    e.end_ts.data hs1h hs1l hs2h hs2l harrow
  have hFind : findSplitOnce sepArrow
      (pyStrip (e.start_ts ++ " --> " ++ e.end_ts)).data = some (a, b) := by
    rw [show (pyStrip (e.start_ts ++ " --> " ++ e.end_ts)).data =
      pyStripL ((e.start_ts.data ++ [' ', '-', '-', '>', ' ']) ++
        e.end_ts.data) from rfl]
    exact hFind0
  have hStart : pyStrip ⟨a⟩ = e.start_ts := by
    unfold pyStrip
    rw [show (⟨a⟩ : String).data = a from rfl, hStart0]
  have hEnd : pyStrip ⟨b⟩ = e.end_ts := by
    unfold pyStrip
    rw [show (⟨b⟩ : String).data = b from rfl, hEnd0]
  have hrest' : ∀ y ∈ rest.head?, (fun x => !isBlank x) y = false := by
    intro y hy
    rcases hrest with rfl | ⟨more, rfl⟩
    · simp at hy
    · rw [List.head?_cons, Option.mem_some_iff] at hy
      subst hy
      decide
  obtain ⟨hTake, hDrop⟩ := takeWhile_append_all (fun x => !isBlank x)
    e.lines rest (fun x hx => by simp [hblank x hx]) hrest'
  show parseEntriesAux (fuel + 1)
      (pyIntRepr e.index :: (e.start_ts ++ " --> " ++ e.end_ts) ::
        (e.lines ++ rest)) = _
  simp only [parseEntriesAux, List.dropWhile_cons, hIdx, Bool.false_eq_true,
    if_false, hParse, hFind, hStart, hEnd, hTake, hDrop]

/-- `sepLines` on a cons with nonempty tail. -/
theorem sepLines_cons (e : SrtEntry) (rest : List SrtEntry) (h : rest ≠ []) :
    sepLines (e :: rest) = entryLines e ++ "" :: sepLines rest := by
  cases rest with
  | nil => exact absurd rfl h
  | cons f t => rfl

/-- `sepLines` of a nonempty entry list is nonempty. -/
theorem sepLines_ne_nil (es : List SrtEntry) (h : es ≠ []) :
    sepLines es ≠ [] := by
  cases es with
  | nil => exact absurd rfl h
  | cons e t =>
    cases t with
    | nil => simp [sepLines, entryLines]
    | cons f t' => simp [sepLines, entryLines]

/-- There are at least as many rendered lines as entries. -/
theorem length_le_sepLines :
    ∀ (es : List SrtEntry), es.length ≤ (sepLines es).length := by
  intro es
  induction es with
  | nil => simp [sepLines]
  | cons e rest ih =>
    cases rest with
    | nil => simp [sepLines, entryLines]
    | cons f t =>
      rw [sepLines_cons e (f :: t) (by simp)]
      simp only [List.length_append, List.length_cons, entryLines] at ih ⊢
      omega

/-- The parse loop reconstructs every entry from the rendered line
list. -/
theorem parse_sepLines :
    ∀ (es : List SrtEntry), (∀ e ∈ es, entryRoundTripWF e) →
      ∀ fuel, es.length ≤ fuel →
        parseEntriesAux fuel (sepLines es) = Except.ok es := by
  intro es
  induction es with
  | nil =>
    intro _ fuel _
    rw [show sepLines [] = [] from rfl]
    exact parseEntriesAux_nil fuel
  | cons e rest ih =>
    intro hWF fuel hfuel
    obtain ⟨fuel', rfl⟩ : ∃ k, fuel = k + 1 := by
      cases fuel with
      | zero => simp at hfuel
      | succ k => exact ⟨k, rfl⟩
    cases rest with
    | nil =>
      rw [show sepLines [e] = entryLines e ++ [] from by simp [sepLines]]
      rw [parse_entry_step e [] fuel' (hWF e (by simp)) (Or.inl rfl)]
      rw [parseEntriesAux_nil fuel']
      rfl
    | cons f t =>
      rw [sepLines_cons e (f :: t) (by simp)]
      rw [parse_entry_step e ("" :: sepLines (f :: t)) fuel'
        (hWF e (by simp)) (Or.inr ⟨_, rfl⟩)]
      obtain ⟨k, rfl⟩ : ∃ k, fuel' = k + 1 := by
        simp only [List.length_cons] at hfuel
        cases fuel' with
        | zero => omega
        | succ k => exact ⟨k, rfl⟩
      rw [parseEntriesAux_skip_blank k "" (by decide) (sepLines (f :: t))]
      have hlen : (f :: t).length ≤ k + 1 := by
        simp only [List.length_cons] at hfuel ⊢
        omega
      rw [ih (fun x hx => hWF x (by simp [hx])) (k + 1) hlen]
      rfl

/-- `"\n".join` distributes over an append of nonempty line lists. -/
theorem joinNL_append :
    ∀ (xs ys : List String), xs ≠ [] → ys ≠ [] →
      joinNL (xs ++ ys) = joinNL xs ++ '\n' :: joinNL ys := by
  intro xs
  induction xs with
  | nil => intro ys h _; exact absurd rfl h
  | cons x xs' ih =>
    intro ys _ hys
    cases xs' with
    | nil =>
      cases ys with
      | nil => exact absurd rfl hys
      | cons y ys' => simp [joinNL]
    | cons x2 t =>
      have h2 := ih ys (by simp) hys
      rw [show (x :: x2 :: t) ++ ys = x :: ((x2 :: t) ++ ys) from rfl]
      rw [show ((x2 :: t) ++ ys : List String) = x2 :: (t ++ ys) from rfl]
      rw [show joinNL (x :: x2 :: (t ++ ys)) =
        x.data ++ '\n' :: joinNL (x2 :: (t ++ ys)) from rfl]
      rw [show (x2 :: (t ++ ys) : List String) = (x2 :: t) ++ ys from rfl, h2]
      simp [joinNL]

/-- The flattened entry blocks are the separated bodies plus one final
separator line. -/
theorem flatMap_entryBlock :
    ∀ (es : List SrtEntry), es ≠ [] →
      es.flatMap entryBlock = sepLines es ++ [""] := by
  intro es
  induction es with
  | nil => intro h; exact absurd rfl h
  | cons e es' ih =>
    intro _
    cases es' with
    | nil => simp [sepLines, entryBlock, entryLines]
    | cons f t =>
      rw [List.flatMap_cons, ih (by simp)]
      rw [sepLines_cons e (f :: t) (by simp)]
      simp [entryBlock, entryLines]

/-- The last rendered line comes from the last entry. -/
theorem sepLines_getLast (es : List SrtEntry) (e : SrtEntry)
    (h : es.getLast? = some e) :
    (sepLines es).getLast? = (entryLines e).getLast? := by
  induction es with
  | nil => simp at h
  | cons a es' ih =>
    cases es' with
    | nil =>
      rw [show ([a] : List SrtEntry).getLast? = some a from rfl,
        Option.some_inj] at h
      subst h
      rfl
    | cons b t =>
      have h' : (b :: t).getLast? = some e := by
        rwa [List.getLast?_cons_cons] at h
      rw [sepLines_cons a (b :: t) (by simp)]
      rw [List.getLast?_append_of_ne_nil _
        (show ("" :: sepLines (b :: t) : List String) ≠ [] by simp)]
      rw [show ("" :: sepLines (b :: t) : List String) =
        [""] ++ sepLines (b :: t) from rfl]
      rw [List.getLast?_append_of_ne_nil _ (sepLines_ne_nil _ (by simp))]
      exact ih h'

/-- The last line of one entry body is its last text line. -/
theorem entryLines_getLast (e : SrtEntry) (h : e.lines ≠ []) :
    (entryLines e).getLast? = e.lines.getLast? := by
  rw [show entryLines e =
    [pyIntRepr e.index, e.start_ts ++ " --> " ++ e.end_ts] ++ e.lines from rfl]
  exact List.getLast?_append_of_ne_nil _ h

/-- The last character of a join is the last character of the last
nonempty line. -/
theorem joinNL_getLast (S : List String) (z : String)
    (h : S.getLast? = some z) (hz : z.data ≠ []) :
    (joinNL S).getLast? = z.data.getLast? := by
  induction S with
  | nil => simp at h
  | cons s S' ih =>
    cases S' with
    | nil =>
      rw [show ([s] : List String).getLast? = some s from rfl,
        Option.some_inj] at h
      subst h
      rfl
    | cons s2 T =>
      have h' : (s2 :: T).getLast? = some z := by
        rwa [List.getLast?_cons_cons] at h
      have hJ := ih h'
      rw [show joinNL (s :: s2 :: T) = s.data ++ '\n' :: joinNL (s2 :: T)
        from rfl]
      rw [List.getLast?_append_of_ne_nil _
        (show ('\n' :: joinNL (s2 :: T) : List Char) ≠ [] by simp)]
      have hJne : joinNL (s2 :: T) ≠ [] := by
        intro hnil
        rw [hnil] at hJ
        have : z.data.getLast? = none := hJ.symm
        rw [List.getLast?_eq_none_iff] at this
        exact hz this
      rw [show ('\n' :: joinNL (s2 :: T) : List Char) =
        ['\n'] ++ joinNL (s2 :: T) from rfl]
      rw [List.getLast?_append_of_ne_nil _ hJne]
      exact hJ

/-- Every rendered line is a separator or comes from some entry body. -/
theorem mem_sepLines :
    ∀ (es : List SrtEntry) (s : String), s ∈ sepLines es →
      s = "" ∨ ∃ e ∈ es, s ∈ entryLines e := by
  intro es
  induction es with
  | nil => intro s h; simp [sepLines] at h
  | cons e rest ih =>
    intro s h
    cases rest with
    | nil => exact Or.inr ⟨e, by simp, h⟩
    | cons f t =>
      rw [sepLines_cons e (f :: t) (by simp)] at h
      rcases List.mem_append.mp h with h1 | h1
      · exact Or.inr ⟨e, by simp, h1⟩
      · rcases List.mem_cons.mp h1 with rfl | h2
        · exact Or.inl rfl
        · rcases ih s h2 with h3 | ⟨e2, he2, hs⟩
          · exact Or.inl h3
          · exact Or.inr ⟨e2, by simp [he2], hs⟩

/-- The splitlines scanner consumes one break-free line up to a LF
boundary. -/
theorem slAux_line :
    ∀ (u : List Char), (∀ c ∈ u, isLineBreak c = false) →
      ∀ (f : Nat) (acc rest : List Char),
        slAux (u.length + f + 1) acc (u ++ '\n' :: rest) =
          (acc.reverse ++ u) ::
            (if rest.isEmpty then [] else slAux f [] rest) := by
  intro u
  induction u with
  | nil =>
    intro _ f acc rest
    simp only [List.length_nil, Nat.zero_add, List.nil_append]
    rw [slAux]
    simp +decide
  | cons c u' ih =>
    intro hu f acc rest
    have hc : isLineBreak c = false := hu c (by simp)
    rw [List.cons_append]
    rw [show (c :: u').length + f + 1 = (u'.length + f + 1) + 1 from by
      simp only [List.length_cons]; omega]
    rw [slAux]
    rw [if_neg (by simp [hc])]
    exact (ih (fun d hd => hu d (by simp [hd])) f (c :: acc) rest).trans
      (by simp)

/-- The splitlines scanner splits a LF-joined, LF-terminated line list
back into its lines. -/
theorem slAux_join :
    ∀ (xs : List String), xs ≠ [] →
      (∀ s ∈ xs, ∀ c ∈ s.data, isLineBreak c = false) →
      ∀ f, slAux ((joinNL xs).length + f + 1) [] (joinNL xs ++ ['\n']) =
        xs.map String.data := by
  intro xs
  induction xs with
  | nil => intro h; exact absurd rfl h
  | cons x xs' ih =>
    intro _ hlb f
    cases xs' with
    | nil =>
      rw [show joinNL [x] = x.data from rfl]
      rw [show (['\n'] : List Char) = '\n' :: [] from rfl]
      rw [slAux_line x.data (hlb x (by simp)) f [] []]
      simp
    | cons y t =>
      rw [show joinNL (x :: y :: t) = x.data ++ '\n' :: joinNL (y :: t)
        from rfl]
      rw [show (x.data ++ '\n' :: joinNL (y :: t)) ++ ['\n'] =
        x.data ++ '\n' :: (joinNL (y :: t) ++ ['\n']) from by simp]
      rw [show (x.data ++ '\n' :: joinNL (y :: t)).length + f + 1 =
        x.data.length + ((joinNL (y :: t)).length + f + 1) + 1 from by
        simp only [List.length_append, List.length_cons]; omega]
      rw [slAux_line x.data (hlb x (by simp))
        ((joinNL (y :: t)).length + f + 1) [] (joinNL (y :: t) ++ ['\n'])]
      rw [if_neg (by simp)]
      rw [ih (by simp) (fun s hs => hlb s (by simp [hs])) f]
      simp

/-- Python `splitlines` undoes the LF-join-and-terminate rendering of a
list of break-free lines. -/
theorem pySplitLines_joinNL (xs : List String) (hne : xs ≠ [])
    (hlb : ∀ s ∈ xs, ∀ c ∈ s.data, isLineBreak c = false) :
    pySplitLines ⟨joinNL xs ++ ['\n']⟩ = xs := by
  obtain ⟨c, cs, hcons⟩ : ∃ c cs, joinNL xs ++ ['\n'] = c :: cs := by
    cases h : joinNL xs ++ ['\n'] with
    | nil => exact absurd h (by simp)
    | cons c cs => exact ⟨c, cs, rfl⟩
  unfold pySplitLines
  rw [show (⟨joinNL xs ++ ['\n']⟩ : String).data = joinNL xs ++ ['\n']
    from rfl]
  rw [hcons]
  show (slAux (c :: cs).length [] (c :: cs)).map (fun cs => (⟨cs⟩ : String)) =
    xs
  rw [← hcons]
  have h2 := slAux_join xs hne hlb 0
  rw [show (joinNL xs).length + 0 + 1 = (joinNL xs ++ ['\n']).length from by
    simp] at h2
  rw [h2]
  rw [show (fun cs => (⟨cs⟩ : String)) = String.mk from rfl, List.map_map]
  rw [show (String.mk ∘ String.data) = id from funext (fun s => rfl)]
  exact List.map_id xs

/-- C3 (amended): `parse_srt` after `render_srt` is the identity on
entry lists that are well formed in the strengthened sense: at least one
text line per entry, text lines non-blank and free of line-break
characters, timing strings (empty ones included) with no line-break
characters and no leading or trailing whitespace, `start_ts` without an
embedded `-->`, and the final text line of the final entry without
trailing whitespace.  The spec's original well-formedness (integer
index, timing strings, non-blank text lines) is refuted by
`parse_render_not_inverse`. -/
theorem parse_render_roundtrip (entries : List SrtEntry)
    (hWF : ∀ e ∈ entries, entryRoundTripWF e)
    (hlast : entries.getLast?.all (fun e => e.lines.getLast?.all
      (fun l => l.data.getLast?.all (fun c => !pyIsSpace c))) = true) :
    parse_srt (render_srt entries) = Except.ok entries := by
  rcases eq_or_ne entries [] with rfl | hne
  · decide
  have h1 : entries.flatMap entryBlock = sepLines entries ++ [""] :=
    flatMap_entryBlock entries hne
  have hS : sepLines entries ≠ [] := sepLines_ne_nil entries hne
  have h2 : joinNL (sepLines entries ++ [""]) =
      joinNL (sepLines entries) ++ ['\n'] := by
    rw [joinNL_append (sepLines entries) [""] hS (by simp)]
    rfl
  obtain ⟨elast, hlastE⟩ : ∃ z, entries.getLast? = some z := by
    cases h : entries.getLast? with
    | none => exact absurd (List.getLast?_eq_none_iff.mp h) hne
    | some z => exact ⟨z, rfl⟩
  obtain ⟨hl_ne, hl_blank, _⟩ := hWF elast (List.mem_of_mem_getLast? hlastE)
  obtain ⟨llast, hlastL⟩ : ∃ z, elast.lines.getLast? = some z := by
    cases h : elast.lines.getLast? with
    | none => exact absurd (List.getLast?_eq_none_iff.mp h) hl_ne
    | some z => exact ⟨z, rfl⟩
  have hllast_ne : llast.data ≠ [] :=
    data_ne_nil_of_not_blank llast
      (hl_blank llast (List.mem_of_mem_getLast? hlastL))
  have hlast' : llast.data.getLast?.all (fun c => !pyIsSpace c) = true := by
    rw [hlastE] at hlast
    simp only [Option.all_some] at hlast
    rw [hlastL] at hlast
    simpa using hlast
  have hgl : ∀ c ∈ (joinNL (sepLines entries)).getLast?,
      pyIsSpace c = false := by
    have e3 : (sepLines entries).getLast? = some llast := by
      rw [sepLines_getLast entries elast hlastE,
        entryLines_getLast elast hl_ne, hlastL]
    rw [joinNL_getLast (sepLines entries) llast e3 hllast_ne]
    exact option_all_false hlast'
  have h3 : pyRstripL (joinNL (sepLines entries) ++ ['\n']) =
      joinNL (sepLines entries) := by
    rw [pyRstripL_snoc_ws _ '\n' (by decide)]
    exact pyRstripL_eq_self _ hgl
  have hlb : ∀ s ∈ sepLines entries, ∀ c ∈ s.data, isLineBreak c = false := by
    intro s hs c hc
    rcases mem_sepLines entries s hs with rfl | ⟨e, he, hse⟩
    · simp [show ("" : String).data = [] from rfl] at hc
    · obtain ⟨_, _, hlb', _, _, _, _, hs1lb, hs2lb, _⟩ := hWF e he
      rcases List.mem_cons.mp hse with rfl | hse2
      · exact pyIntRepr_no_lb e.index c hc
      rcases List.mem_cons.mp hse2 with rfl | hse3
      · rw [show (e.start_ts ++ " --> " ++ e.end_ts).data =
          (e.start_ts.data ++ [' ', '-', '-', '>', ' ']) ++ e.end_ts.data
          from rfl] at hc
        rcases List.mem_append.mp hc with h1 | h1
        · rcases List.mem_append.mp h1 with h2 | h2
          · exact hs1lb c h2
          · simp only [List.mem_cons, List.not_mem_nil, or_false] at h2
            rcases h2 with rfl | rfl | rfl | rfl | rfl <;> decide
        · exact hs2lb c h1
      · exact hlb' s hse3 c hc
  have h4 : pySplitLines ⟨joinNL (sepLines entries) ++ ['\n']⟩ =
      sepLines entries := pySplitLines_joinNL _ hS hlb
  have hR : render_srt entries = ⟨joinNL (sepLines entries) ++ ['\n']⟩ := by
    unfold render_srt
    rw [h1, h2, h3]
  show parseEntriesAux (pySplitLines (render_srt entries)).length
    (pySplitLines (render_srt entries)) = Except.ok entries
  rw [hR, h4]
  exact parse_sepLines entries hWF _ (length_le_sepLines entries)

/-- Witness for the amended round-trip at a concrete two-entry input. -/
theorem parse_render_roundtrip_witness :
    parse_srt (render_srt
      [⟨1, "00:00:00,000", "00:00:01,000", ["あい"]⟩,
       ⟨2, "00:00:01,000", "00:00:02,000", ["うえ", "お"]⟩]) =
      Except.ok
      [⟨1, "00:00:00,000", "00:00:01,000", ["あい"]⟩,
       ⟨2, "00:00:01,000", "00:00:02,000", ["うえ", "お"]⟩] :=
  parse_render_roundtrip
    [⟨1, "00:00:00,000", "00:00:01,000", ["あい"]⟩,
     ⟨2, "00:00:01,000", "00:00:02,000", ["うえ", "お"]⟩]
    (by decide) (by decide)

/-- C9: `normalize_japanese_text` is idempotent — applying it to its own
output returns that output unchanged, for every string. -/
theorem normalize_japanese_text_idempotent (s : String) :
    normalize_japanese_text (normalize_japanese_text s) =
      normalize_japanese_text s := by
  unfold normalize_japanese_text
  exact congrArg String.mk (normalizeL_idem s.data)

end Theorems

end AvSrt




